import Mathlib

/-!
Shallow embedding of the OpenBLAS zarch GEMM inner kernel
(`kernel/zarch/gemm_vec.c`) and verification of its specification.

The scalar type `FLOAT` is embedded as `ℚ` (exact arithmetic); machine
integers (`BLASLONG`) are embedded as `ℤ`; memory buffers are flat maps
`ℤ → ℚ`.  Loops with an integer trip count `n` iterate `n.toNat` times,
matching the C semantics of `for (i = 0; i < n; i++)` for both positive
and non-positive `n`.  The unroll parameters `UNROLL_M` / `UNROLL_N` and
the `DOUBLE` configuration come from headers outside this translation
unit, so they are carried as explicit parameters.
-/

namespace GemmVec

/-- Memory holding scalars of the embedded `FLOAT` type, addressed by
flat signed indices (pointer arithmetic on `FLOAT *`). -/
abbrev Mem := ℤ → ℚ

/-- Pointwise store: write value `v` at address `x`, embedding an
assignment `m[x] = v`. -/
def upd {α M : Type*} [DecidableEq α] (m : α → M) (x : α) (v : M) : α → M :=
  fun y => if y = x then v else m y

/-- Embedding of the C loop `for (t = 0; t < n; t++) body;` as a fold of
the body over the iteration indices `0, 1, ..., n-1` in order. -/
def cfor {σ : Type*} (n : ℕ) (f : ℕ → σ → σ) (s : σ) : σ :=
  (List.range n).foldl (fun s i => f i s) s

@[simp] theorem cfor_zero {σ : Type*} (f : ℕ → σ → σ) (s : σ) : cfor 0 f s = s := rfl

theorem cfor_succ {σ : Type*} (n : ℕ) (f : ℕ → σ → σ) (s : σ) :
    cfor (n + 1) f s = f n (cfor n f s) := by
  simp [cfor, List.range_succ]

/-- The descending-halving partition loop shared by `CNAME` (columns)
and `GEBP_column_block` (rows):

    for (block_size = T; block_size > 0; block_size /= 2)
        for (; E - pos >= block_size; pos += block_size)
            ... use block (pos, block_size) ...

`partitionFrom bs pos E` returns, in order, the `(start, size)` pairs of
the blocks the loop consumes. -/
def partitionFrom (bs : ℕ) (pos E : ℤ) : List (ℤ × ℕ) :=
  if bs = 0 then []
  else if (bs : ℤ) ≤ E - pos then
    (pos, bs) :: partitionFrom bs (pos + bs) E
  else
    partitionFrom (bs / 2) pos E
termination_by (E - pos).toNat + bs
decreasing_by
  · omega
  · omega

/-- The sequence of block sizes the partition loop consumes for an
extent `E` with preferred tile size `T`. -/
def blockSizes (T : ℕ) (E : ℤ) : List ℕ :=
  (partitionFrom T 0 E).map Prod.snd

/-- The halving sequence `T, T/2, ..., 1` of candidate block sizes. -/
def halving (b : ℕ) : List ℕ :=
  if b = 0 then [] else b :: halving (b / 2)
termination_by b
decreasing_by omega

/-- Find the partition block `(start, size)` containing index `i`
(blocks are scanned in order; the first block with `i < start + size`
is returned, which for an in-range `i` is the unique block containing it). -/
def blockOfAux (L : List (ℤ × ℕ)) (i : ℤ) : ℤ × ℕ :=
  match L with
  | [] => (0, 0)
  | sh :: t => if i < sh.1 + sh.2 then sh else blockOfAux t i

/-- The row (or column) block of the partition of extent `E` with tile
`T` that contains index `i`. -/
def blockOf (T : ℕ) (E i : ℤ) : ℤ × ℕ :=
  blockOfAux (partitionFrom T 0 E) i

/-- Logical entry `(i, kk)` of matrix A, read from its packed row-block
layout: within the row block `(s, h)` containing row `i`, A stores the
`h`-row slice column-by-column starting at flat offset `s * bk`. -/
def Alogical (A : ℤ → ℚ) (T : ℕ) (bm bk i kk : ℤ) : ℚ :=
  let sh := blockOf T bm i
  A (sh.1 * bk + (i - sh.1) + kk * sh.2)

/-- Logical entry `(kk, j)` of matrix B, read from its packed
column-panel layout: within the column block `(s, w)` containing column
`j`, B stores the `w`-column panel row-by-row starting at flat offset
`s * bk`. -/
def Blogical (B : ℤ → ℚ) (T : ℕ) (bn bk kk j : ℤ) : ℚ :=
  let sw := blockOf T bn j
  B (sw.1 * bk + (j - sw.1) + kk * sw.2)

/-- VLEN_FLOATS = 16 bytes / sizeof(FLOAT): 2 lanes for double
precision, 4 for single precision. -/
def vlenFloats (isDouble : Bool) : ℕ := if isDouble then 2 else 4

/-- The register accumulator tile `Caux` of the `VECTOR_BLOCK(ROWS,
COLS)` micro-kernel after its reduction loop: `ROWS/vlen × COLS` vector
cells (lane maps `ℕ → ℚ`), zero-initialized by the `vec_splats(ZERO)`
loops, then accumulated once per reduction index `k < bk`:

    Caux[i][j] += Ak * B[j + k * COLS]   with   Ak = *(A + i*VLEN + k*ROWS). -/
def VB_Caux (vlen ROWS COLS : ℕ) (A : ℤ → ℚ) (bk : ℤ) (B : ℤ → ℚ) : ℕ × ℕ → ℕ → ℚ :=
  cfor bk.toNat (fun k acc =>
    cfor (ROWS / vlen) (fun i acc =>
      cfor COLS (fun j acc =>
        upd acc (i, j) (acc (i, j) + fun l =>
          A (((i * vlen + l : ℕ) : ℤ) + (k : ℤ) * (ROWS : ℤ)) *
            B ((j : ℤ) + (k : ℤ) * (COLS : ℤ)))) acc) acc)
    (fun _ _ => 0)

/-- Embedding of the `VECTOR_BLOCK(ROWS, COLS)` macro: the specialized
micro-kernel `GEBP_block_ROWS_COLS(A, bk, B, C, ldc, alpha)`.  `A` and
`B` are the (already offset) packed operand blocks; `C` is whole memory
with the tile origin at flat address `cOff`.  After the reduction loop
(see `VB_Caux`) the unpack loop stores lanes `0, ..., vlen-1` of each
accumulator back into C:

    *(C + i*VLEN + j*ldc) += alpha * Caux[i][j]. -/
def VECTOR_BLOCK (vlen ROWS COLS : ℕ) (A : ℤ → ℚ) (bk : ℤ) (B : ℤ → ℚ)
    (C : Mem) (cOff ldc : ℤ) (alpha : ℚ) : Mem :=
  let Caux := VB_Caux vlen ROWS COLS A bk B
  cfor COLS (fun j Cm =>
    cfor (ROWS / vlen) (fun i Cm =>
      cfor vlen (fun l Cm =>
        let a : ℤ := cOff + ((i * vlen + l : ℕ) : ℤ) + (j : ℤ) * ldc
        upd Cm a (Cm a + alpha * Caux (i, j) l)) Cm) Cm) C

/-- The stack accumulator `Caux[m][n]` of the generic fallback in
`GEBP_block` after its reduction loops: the peeled first iteration
(`Caux[i][j] = A[i] * B[j]`) initializes every cell, then iterations
`kk = 1, ..., k-1` accumulate `A[i + kk*m] * B[j + kk*n]`.  The
uninitialized stack buffer is modelled as all zeroes; the peel assigns
every used cell before it is read. -/
def FB_Caux (m n : ℤ) (A : ℤ → ℚ) (k : ℤ) (B : ℤ → ℚ) : ℕ × ℕ → ℚ :=
  let mN := m.toNat
  let nN := n.toNat
  let Caux1 : ℕ × ℕ → ℚ :=
    cfor mN (fun i acc =>
      cfor nN (fun j acc => upd acc (i, j) (A i * B j)) acc) (fun _ => 0)
  cfor (k - 1).toNat (fun t acc =>
    cfor mN (fun i acc =>
      cfor nN (fun j acc =>
        upd acc (i, j)
          (acc (i, j) + A ((i : ℤ) + ((t : ℤ) + 1) * m) * B ((j : ℤ) + ((t : ℤ) + 1) * n)))
        acc) acc) Caux1

/-- Embedding of the generic fallback at the end of `GEBP_block`
(the "simple implementation for smaller block sizes"): `A` is already
offset by `first_row * k` and the C tile origin is at `cOff`; after the
reduction loops (see `FB_Caux`) the unpack loop performs
`C[i + j*ldc] += alpha * Caux[i][j]`. -/
def GEBP_block_generic (m n : ℤ) (A : ℤ → ℚ) (k : ℤ) (B : ℤ → ℚ)
    (C : Mem) (cOff ldc : ℤ) (alpha : ℚ) : Mem :=
  let Caux := FB_Caux m n A k B
  cfor m.toNat (fun i Cm =>
    cfor n.toNat (fun j Cm =>
      let a : ℤ := cOff + (i : ℤ) + (j : ℤ) * ldc
      upd Cm a (Cm a + alpha * Caux (i, j))) Cm) C

/-- Embedding of `GEBP_block(m, n, first_row, A, k, B, C, ldc, alpha)`:
offset A by `first_row * k` and C by `first_row`, then dispatch on the
exact tile shape to a specialized `VECTOR_BLOCK` instance (the double
precision build also specializes 2x4 and 2x2), falling back to the
generic implementation. -/
def GEBP_block (isDouble : Bool) (m n first_row : ℤ) (A : ℤ → ℚ) (k : ℤ)
    (B : ℤ → ℚ) (C : Mem) (cOff ldc : ℤ) (alpha : ℚ) : Mem :=
  let vlen := vlenFloats isDouble
  let Ab : ℤ → ℚ := fun idx => A (first_row * k + idx)
  let cOffb : ℤ := cOff + first_row
  if m = 8 ∧ n = 4 then VECTOR_BLOCK vlen 8 4 Ab k B C cOffb ldc alpha
  else if m = 8 ∧ n = 2 then VECTOR_BLOCK vlen 8 2 Ab k B C cOffb ldc alpha
  else if m = 8 ∧ n = 1 then VECTOR_BLOCK vlen 8 1 Ab k B C cOffb ldc alpha
  else if m = 4 ∧ n = 4 then VECTOR_BLOCK vlen 4 4 Ab k B C cOffb ldc alpha
  else if m = 4 ∧ n = 2 then VECTOR_BLOCK vlen 4 2 Ab k B C cOffb ldc alpha
  else if m = 4 ∧ n = 1 then VECTOR_BLOCK vlen 4 1 Ab k B C cOffb ldc alpha
  else if isDouble = true ∧ m = 2 ∧ n = 4 then VECTOR_BLOCK vlen 2 4 Ab k B C cOffb ldc alpha
  else if isDouble = true ∧ m = 2 ∧ n = 2 then VECTOR_BLOCK vlen 2 2 Ab k B C cOffb ldc alpha
  else GEBP_block_generic m n Ab k B C cOffb ldc alpha

/-- The row-partition loop inside `GEBP_column_block`:

    row = 0;
    for (block_size = unroll_m; block_size > 0; block_size /= 2)
        for (; bm - row >= block_size; row += block_size)
            GEBP_block(block_size, num_cols, row, A, bk, B_i, C_i, ldc, alpha);
-/
def rowPartLoop (isDouble : Bool) (block_size : ℕ) (row bm num_cols : ℤ)
    (A : ℤ → ℚ) (bk : ℤ) (Bi : ℤ → ℚ) (cOff ldc : ℤ) (alpha : ℚ) (C : Mem) : Mem :=
  if block_size = 0 then C
  else if (block_size : ℤ) ≤ bm - row then
    rowPartLoop isDouble block_size (row + block_size) bm num_cols A bk Bi cOff ldc alpha
      (GEBP_block isDouble block_size num_cols row A bk Bi C cOff ldc alpha)
  else
    rowPartLoop isDouble (block_size / 2) row bm num_cols A bk Bi cOff ldc alpha C
termination_by (bm - row).toNat + block_size
decreasing_by
  · omega
  · omega

/-- Embedding of `GEBP_column_block(num_cols, first_col, A, bk, B, bm,
C, ldc, alpha)`: offset C by `first_col * ldc` and B by
`first_col * bk`, then partition the rows. -/
def GEBP_column_block (isDouble : Bool) (unrollM : ℕ) (num_cols first_col : ℤ)
    (A : ℤ → ℚ) (bk : ℤ) (B : ℤ → ℚ) (bm : ℤ) (C : Mem) (ldc : ℤ) (alpha : ℚ) : Mem :=
  let cOff : ℤ := first_col * ldc
  let Bi : ℤ → ℚ := fun idx => B (first_col * bk + idx)
  rowPartLoop isDouble unrollM 0 bm num_cols A bk Bi cOff ldc alpha C

/-- The column-partition loop inside `CNAME`:

    col = 0;
    for (block_size = unroll_n; block_size > 0; block_size /= 2)
        for (; bn - col >= block_size; col += block_size)
            GEBP_column_block(block_size, col, ba, bk, bb, bm, C, ldc, alpha);
-/
def colPartLoop (isDouble : Bool) (unrollM : ℕ) (block_size : ℕ) (col bn bm bk : ℤ)
    (ba bb : ℤ → ℚ) (ldc : ℤ) (alpha : ℚ) (C : Mem) : Mem :=
  if block_size = 0 then C
  else if (block_size : ℤ) ≤ bn - col then
    colPartLoop isDouble unrollM block_size (col + block_size) bn bm bk ba bb ldc alpha
      (GEBP_column_block isDouble unrollM block_size col ba bk bb bm C ldc alpha)
  else
    colPartLoop isDouble unrollM (block_size / 2) col bn bm bk ba bb ldc alpha C
termination_by (bn - col).toNat + block_size
decreasing_by
  · omega
  · omega

/-- Embedding of the entry point

    int CNAME(BLASLONG bm, BLASLONG bn, BLASLONG bk, FLOAT alpha,
              FLOAT *ba, FLOAT *bb, FLOAT *C, BLASLONG ldc)

returning the final contents of C together with the C return value. -/
def CNAME (isDouble : Bool) (unrollM unrollN : ℕ) (bm bn bk : ℤ) (alpha : ℚ)
    (ba bb : ℤ → ℚ) (C : Mem) (ldc : ℤ) : Mem × ℤ :=
  if bm = 0 ∨ bn = 0 ∨ bk = 0 ∨ alpha = 0 then (C, 0)
  else (colPartLoop isDouble unrollM unrollN 0 bn bm bk ba bb ldc alpha C, 0)

/-- The `(n, k)` argument pairs of the `GEBP_block` invocations
performed by one call of `CNAME`, read off from the guard and the two
partition loops: one invocation per (column block, row block) pair,
with `n` the column-block width and `k = bk`. -/
def GEBP_calls (unrollM unrollN : ℕ) (bm bn bk : ℤ) (alpha : ℚ) : List (ℤ × ℤ) :=
  if bm = 0 ∨ bn = 0 ∨ bk = 0 ∨ alpha = 0 then []
  else (partitionFrom unrollN 0 bn).flatMap fun cb =>
       (partitionFrom unrollM 0 bm).map fun _ => ((cb.2 : ℤ), bk)

/-- The fixed set of specialized micro-kernel shapes `(ROWS, COLS)`;
double precision additionally specializes 2x4 and 2x2. -/
def shapes (isDouble : Bool) : List (ℕ × ℕ) :=
  [(8, 4), (8, 2), (8, 1), (4, 4), (4, 2), (4, 1)] ++
    (if isDouble then [(2, 4), (2, 2)] else [])

/-- Exact value accumulated by the micro-kernel for output cell
`(r, c)` of a `R × C` tile: the reduction over `kk` of
`A[r + kk*R] * B[c + kk*C]` in the packed layouts. -/
def microAcc (R C : ℕ) (A : ℤ → ℚ) (k : ℤ) (B : ℤ → ℚ) (r c : ℕ) : ℚ :=
  ∑ kk ∈ Finset.range k.toNat,
    A ((r : ℤ) + (kk : ℤ) * (R : ℤ)) * B ((c : ℤ) + (kk : ℤ) * (C : ℤ))

/-- Exact value accumulated by the generic fallback for output cell
`(i, j)`: the peeled first term `A[i] * B[j]` plus the remaining
reduction steps `kk = 1, ..., k-1` (so for `k < 1` the peeled term is
still present, mirroring the code). -/
def genericAcc (m n : ℤ) (A : ℤ → ℚ) (k : ℤ) (B : ℤ → ℚ) (i j : ℕ) : ℚ :=
  A i * B j +
    ∑ t ∈ Finset.range (k - 1).toNat,
      A ((i : ℤ) + ((t : ℤ) + 1) * m) * B ((j : ℤ) + ((t : ℤ) + 1) * n)

/-- Whether `GEBP_block` dispatches shape `(m, n)` to a specialized
`VECTOR_BLOCK` instance. -/
def dispatched (isDouble : Bool) (m n : ℤ) : Prop :=
  (m = 8 ∧ n = 4) ∨ (m = 8 ∧ n = 2) ∨ (m = 8 ∧ n = 1) ∨
  (m = 4 ∧ n = 4) ∨ (m = 4 ∧ n = 2) ∨ (m = 4 ∧ n = 1) ∨
  (isDouble = true ∧ m = 2 ∧ n = 4) ∨ (isDouble = true ∧ m = 2 ∧ n = 2)

instance (isDouble : Bool) (m n : ℤ) : Decidable (dispatched isDouble m n) := by
  unfold dispatched
  infer_instance

/-- The amount `GEBP_block(m, n, first_row, A, k, B, C, ldc, alpha)`
adds to output cell `(r, c)` of its tile: `alpha` times the micro-kernel
accumulation when the shape is dispatched, `alpha` times the fallback
accumulation otherwise (the two differ only when `k < 1`). -/
def GEBP_block_inc (isDouble : Bool) (m n first_row : ℤ) (A : ℤ → ℚ) (k : ℤ)
    (B : ℤ → ℚ) (alpha : ℚ) (r c : ℕ) : ℚ :=
  let Ab : ℤ → ℚ := fun idx => A (first_row * k + idx)
  if dispatched isDouble m n then alpha * microAcc m.toNat n.toNat Ab k B r c
  else alpha * genericAcc m n Ab k B r c

/-- The total amount one `CNAME` invocation (with the degeneracy guard
already passed) adds at flat address `a` of C: the sum over all column
blocks, row blocks, and tile cells whose output address is `a`. -/
def kernelInc (isDouble : Bool) (unrollM unrollN : ℕ) (bm bn bk : ℤ) (alpha : ℚ)
    (ba bb : ℤ → ℚ) (ldc : ℤ) (a : ℤ) : ℚ :=
  ((partitionFrom unrollN 0 bn).map fun cb =>
    ((partitionFrom unrollM 0 bm).map fun rb =>
      ∑ r ∈ Finset.range rb.2, ∑ c ∈ Finset.range cb.2,
        if a = cb.1 * ldc + rb.1 + (r : ℤ) + (c : ℤ) * ldc then
          GEBP_block_inc isDouble (rb.2 : ℤ) (cb.2 : ℤ) rb.1 ba bk
            (fun idx => bb (cb.1 * bk + idx)) alpha r c
        else 0).sum).sum

end GemmVec

namespace GemmVec

/-! ## Generic loop lemmas -/

@[simp] theorem upd_same {α M : Type*} [DecidableEq α] (m : α → M) (x : α) (v : M) :
    upd m x v x = v := by simp [upd]

theorem upd_ne {α M : Type*} [DecidableEq α] (m : α → M) (x y : α) (v : M) (h : y ≠ x) :
    upd m x v y = m y := by simp [upd, h]

/-- A read-modify-write `m[x] += v` is the pointwise addition of an
indicator increment. -/
theorem upd_add {α M : Type*} [DecidableEq α] [AddCommMonoid M] (m : α → M) (x : α) (v : M) :
    upd m x (m x + v) = fun y => m y + if y = x then v else 0 := by
  funext y
  by_cases h : y = x <;> simp [upd, h]

/-- Folding state transformers that each add a state-independent
increment yields the pointwise sum of the increments. -/
theorem foldl_add {α β M : Type*} [AddCommMonoid M] (L : List β)
    (f : β → (α → M) → (α → M)) (g : β → α → M)
    (hf : ∀ b m, f b m = fun a => m a + g b a) (C : α → M) :
    L.foldl (fun m b => f b m) C = fun a => C a + (L.map (fun b => g b a)).sum := by
  induction L generalizing C with
  | nil => simp
  | cons b t ih =>
    simp only [List.foldl_cons, List.map_cons, List.sum_cons]
    rw [hf, ih]
    funext a
    simp [add_assoc]

/-- `cfor` version of `foldl_add`. -/
theorem cfor_add {α M : Type*} [AddCommMonoid M] (n : ℕ)
    (f : ℕ → (α → M) → (α → M)) (g : ℕ → α → M)
    (hf : ∀ t m, f t m = fun a => m a + g t a) (C : α → M) :
    cfor n f C = fun a => C a + ∑ t ∈ Finset.range n, g t a := by
  induction n with
  | zero => simp
  | succ n ih =>
    rw [cfor_succ, ih, hf]
    funext a
    simp [Finset.sum_range_succ, add_assoc]

end GemmVec

namespace GemmVec

/-! ## Partition-loop lemmas -/

theorem partitionFrom_mem (bs : ℕ) (pos E : ℤ) :
    ∀ sh ∈ partitionFrom bs pos E,
      0 < sh.2 ∧ sh.2 ≤ bs ∧ pos ≤ sh.1 ∧ sh.1 + (sh.2 : ℤ) ≤ E := by
  induction bs, pos, E using partitionFrom.induct with
  | case1 pos E =>
    rw [partitionFrom]
    intro sh hsh
    simp at hsh
  | case2 bs pos E h1 h2 ih =>
    rw [partitionFrom, if_neg h1, if_pos h2]
    intro sh hsh
    rcases List.mem_cons.mp hsh with hh | ht
    · subst hh
      refine ⟨by omega, le_refl _, le_refl _, by omega⟩
    · have := ih sh ht
      refine ⟨this.1, this.2.1, by omega, this.2.2.2⟩
  | case3 bs pos E h1 h2 ih =>
    rw [partitionFrom, if_neg h1, if_neg h2]
    intro sh hsh
    have := ih sh hsh
    refine ⟨this.1, by omega, this.2.2.1, this.2.2.2⟩

/-- Total extent consumed by the partition loop: the block sizes sum to
exactly the remaining extent `E - pos` (when it is nonnegative). -/
theorem partitionFrom_sum (bs : ℕ) (pos E : ℤ) (hbs : 1 ≤ bs) (hpos : pos ≤ E) :
    pos + ((((partitionFrom bs pos E).map Prod.snd).sum : ℕ) : ℤ) = E := by
  revert hbs hpos
  induction bs, pos, E using partitionFrom.induct with
  | case1 pos E =>
    intro hbs _
    omega
  | case2 bs pos E h1 h2 ih =>
    intro hbs hpos
    rw [partitionFrom, if_neg h1, if_pos h2]
    have := ih (by omega) (by omega)
    simp only [List.map_cons, List.sum_cons]
    push_cast at this ⊢
    omega
  | case3 bs pos E h1 h2 ih =>
    intro hbs hpos
    rw [partitionFrom, if_neg h1, if_neg h2]
    rcases Nat.eq_or_lt_of_le hbs with h | h
    · have hE : E = pos := by omega
      subst hE
      have hz : bs / 2 = 0 := by omega
      rw [hz, partitionFrom]
      simp
    · exact ih (by omega) hpos

/-- Blocks are emitted in order: each block ends no later than the next
one starts (hence they are pairwise disjoint). -/
theorem partitionFrom_pairwise (bs : ℕ) (pos E : ℤ) :
    List.Pairwise (fun a b : ℤ × ℕ => a.1 + (a.2 : ℤ) ≤ b.1) (partitionFrom bs pos E) := by
  induction bs, pos, E using partitionFrom.induct with
  | case1 pos E =>
    rw [partitionFrom]
    exact List.Pairwise.nil
  | case2 bs pos E h1 h2 ih =>
    rw [partitionFrom, if_neg h1, if_pos h2]
    refine List.pairwise_cons.mpr ⟨?_, ih⟩
    intro sh hsh
    have := partitionFrom_mem bs (pos + bs) E sh hsh
    simpa using this.2.2.1
  | case3 bs pos E h1 h2 ih =>
    rw [partitionFrom, if_neg h1, if_neg h2]
    exact ih

/-- For an index `i` inside the covered range, `blockOfAux` returns a
block of the partition that contains `i`. -/
theorem blockOfAux_mem (bs : ℕ) (pos E : ℤ) (hbs : 1 ≤ bs) (i : ℤ)
    (hpi : pos ≤ i) (hiE : i < E) :
    blockOfAux (partitionFrom bs pos E) i ∈ partitionFrom bs pos E ∧
      (blockOfAux (partitionFrom bs pos E) i).1 ≤ i ∧
      i < (blockOfAux (partitionFrom bs pos E) i).1 +
            ((blockOfAux (partitionFrom bs pos E) i).2 : ℤ) := by
  revert hbs hpi hiE
  induction bs, pos, E using partitionFrom.induct with
  | case1 pos E =>
    intro hbs _ _
    omega
  | case2 bs pos E h1 h2 ih =>
    intro hbs hpi hiE
    rw [partitionFrom, if_neg h1, if_pos h2]
    by_cases hi : i < pos + (bs : ℤ)
    · have hb : blockOfAux ((pos, bs) :: partitionFrom bs (pos + bs) E) i = (pos, bs) := by
        simp only [blockOfAux]
        rw [if_pos]
        exact hi
      rw [hb]
      exact ⟨List.mem_cons_self _ _, hpi, hi⟩
    · have hrec := ih (by omega) (by omega) hiE
      have hb : blockOfAux ((pos, bs) :: partitionFrom bs (pos + bs) E) i =
          blockOfAux (partitionFrom bs (pos + bs) E) i := by
        simp only [blockOfAux]
        rw [if_neg]
        exact hi
      rw [hb]
      exact ⟨List.mem_cons_of_mem _ hrec.1, hrec.2.1, hrec.2.2⟩
  | case3 bs pos E h1 h2 ih =>
    intro hbs hpi hiE
    rw [partitionFrom, if_neg h1, if_neg h2]
    rcases Nat.eq_or_lt_of_le hbs with h | h
    · omega
    · exact ih (by omega) hpi hiE

end GemmVec

namespace GemmVec

/-- In a list of pairwise-disjoint ordered blocks, `blockOfAux` returns
the (unique) member block containing `i`. -/
theorem blockOfAux_eq {L : List (ℤ × ℕ)}
    (hL : List.Pairwise (fun a b : ℤ × ℕ => a.1 + (a.2 : ℤ) ≤ b.1) L)
    (sh : ℤ × ℕ) (hmem : sh ∈ L) (i : ℤ) (h1 : sh.1 ≤ i) (h2 : i < sh.1 + (sh.2 : ℤ)) :
    blockOfAux L i = sh := by
  induction L with
  | nil => simp at hmem
  | cons hd t ih =>
    rcases List.mem_cons.mp hmem with hh | ht
    · subst hh
      simp only [blockOfAux]
      rw [if_pos h2]
    · have hsep : hd.1 + (hd.2 : ℤ) ≤ sh.1 :=
        (List.pairwise_cons.mp hL).1 sh ht
      simp only [blockOfAux]
      rw [if_neg (by omega)]
      exact ih (List.pairwise_cons.mp hL).2 ht

/-- Reindexing a sum over partition blocks and in-block offsets as a sum
over the covered contiguous range of global indices. -/
theorem partitionFrom_reindex {M : Type*} [AddCommMonoid M]
    (f : (ℤ × ℕ) → ℤ → M) (bs : ℕ) (pos E : ℤ) :
    ((partitionFrom bs pos E).map
        (fun sh => ∑ r ∈ Finset.range sh.2, f sh (sh.1 + (r : ℤ)))).sum
      = ∑ t ∈ Finset.range (((partitionFrom bs pos E).map Prod.snd).sum),
          f (blockOfAux (partitionFrom bs pos E) (pos + (t : ℤ))) (pos + (t : ℤ)) := by
  induction bs, pos, E using partitionFrom.induct with
  | case1 pos E =>
    rw [partitionFrom]
    simp
  | case2 bs pos E h1 h2 ih =>
    rw [partitionFrom, if_neg h1, if_pos h2]
    simp only [List.map_cons, List.sum_cons]
    rw [Finset.sum_range_add]
    congr 1
    · apply Finset.sum_congr rfl
      intro r hr
      have hr' : (r : ℕ) < bs := Finset.mem_range.mp hr
      have hb : blockOfAux ((pos, bs) :: partitionFrom bs (pos + bs) E) (pos + (r : ℤ)) =
          (pos, bs) := by
        simp only [blockOfAux]
        rw [if_pos]
        omega
      rw [hb]
    · rw [ih]
      apply Finset.sum_congr rfl
      intro t _
      have hb : blockOfAux ((pos, bs) :: partitionFrom bs (pos + bs) E)
            (pos + ((bs + t : ℕ) : ℤ)) =
          blockOfAux (partitionFrom bs (pos + bs) E) (pos + ((bs + t : ℕ) : ℤ)) := by
        simp only [blockOfAux]
        rw [if_neg]
        push_cast
        omega
      have harg : pos + ((bs + t : ℕ) : ℤ) = pos + (bs : ℤ) + (t : ℤ) := by
        push_cast
        ring
      rw [hb, harg]
  | case3 bs pos E h1 h2 ih =>
    rw [partitionFrom, if_neg h1, if_neg h2]
    exact ih

end GemmVec

namespace GemmVec

/-! ## Tile-loop lemmas -/

/-- Collapse a double indicator sum over a rectangular index range. -/
theorem sum_indicator_pair {M : Type*} [AddCommMonoid M] (m n : ℕ) (v : ℕ → ℕ → M)
    (p : ℕ × ℕ) :
    (∑ i ∈ Finset.range m, ∑ j ∈ Finset.range n, if p = (i, j) then v i j else 0)
      = if p.1 < m ∧ p.2 < n then v p.1 p.2 else 0 := by
  rw [← Finset.sum_product' (f := fun i j => if p = (i, j) then v i j else 0)]
  have h1 : (∑ x ∈ Finset.range m ×ˢ Finset.range n, if p = (x.1, x.2) then v x.1 x.2 else 0)
      = ∑ x ∈ Finset.range m ×ˢ Finset.range n, if p = x then v x.1 x.2 else 0 := by
    apply Finset.sum_congr rfl
    intro x _
    rw [Prod.mk.eta]
  rw [h1, Finset.sum_ite_eq]
  by_cases hp : p.1 < m ∧ p.2 < n
  · rw [if_pos (by simp [Finset.mem_product, hp.1, hp.2]), if_pos hp]
  · rw [if_neg (by simp only [Finset.mem_product, Finset.mem_range]; exact hp), if_neg hp]

/-- A doubly nested accumulation loop over a tile adds its per-cell
contribution to every cell of the tile. -/
theorem cfor_tile_add {M : Type*} [AddCommMonoid M] (m n : ℕ) (v : ℕ → ℕ → M)
    (acc : ℕ × ℕ → M) :
    cfor m (fun i a => cfor n (fun j a => upd a (i, j) (a (i, j) + v i j)) a) acc
      = fun p => acc p + if p.1 < m ∧ p.2 < n then v p.1 p.2 else 0 := by
  have hin : ∀ (i : ℕ) (a : ℕ × ℕ → M),
      cfor n (fun j a => upd a (i, j) (a (i, j) + v i j)) a
        = fun p => a p + ∑ j ∈ Finset.range n, if p = (i, j) then v i j else 0 := by
    intro i a
    exact cfor_add n _ (fun j p => if p = (i, j) then v i j else 0)
      (fun j a => upd_add a (i, j) (v i j)) a
  rw [cfor_add m _ (fun i p => ∑ j ∈ Finset.range n, if p = (i, j) then v i j else 0) hin acc]
  funext p
  rw [sum_indicator_pair]

/-- A doubly nested assignment loop over a tile overwrites exactly the
tile's cells. -/
theorem cfor_tile_assign {M : Type*} (m n : ℕ) (v : ℕ → ℕ → M) (acc : ℕ × ℕ → M) :
    cfor m (fun i a => cfor n (fun j a => upd a (i, j) (v i j)) a) acc
      = fun p => if p.1 < m ∧ p.2 < n then v p.1 p.2 else acc p := by
  have hin : ∀ (i : ℕ) (a : ℕ × ℕ → M),
      cfor n (fun j a => upd a (i, j) (v i j)) a
        = fun p => if p.1 = i ∧ p.2 < n then v i p.2 else a p := by
    intro i a
    induction n with
    | zero =>
      funext p
      simp
    | succ n ihn =>
      rw [cfor_succ, ihn]
      funext p
      by_cases hp : p = (i, n)
      · subst hp
        simp [upd]
      · rw [upd_ne _ _ _ _ hp]
        by_cases h1 : p.1 = i
        · by_cases h2 : p.2 < n
          · rw [if_pos ⟨h1, h2⟩, if_pos ⟨h1, by omega⟩]
          · have hne : p.2 ≠ n := fun hc => hp (Prod.ext h1 hc)
            rw [if_neg (fun hc => h2 hc.2), if_neg (fun hc => h2 (by omega))]
        · rw [if_neg (fun hc => h1 hc.1), if_neg (fun hc => h1 hc.1)]
  induction m with
  | zero =>
    funext p
    simp
  | succ m ihm =>
    rw [cfor_succ, ihm, hin]
    funext p
    by_cases h1 : p.1 = m
    · by_cases h2 : p.2 < n
      · rw [if_pos ⟨h1, h2⟩, if_pos ⟨by omega, h2⟩, h1]
      · rw [if_neg (fun hc => h2 hc.2), if_neg (fun hc => h2 hc.2),
          if_neg (fun hc => h2 hc.2)]
    · by_cases h3 : p.1 < m
      · rw [if_neg (fun hc => h1 hc.1)]
        by_cases h2 : p.2 < n
        · rw [if_pos ⟨h3, h2⟩, if_pos ⟨by omega, h2⟩]
        · rw [if_neg (fun hc => h2 hc.2), if_neg (fun hc => h2 hc.2)]
      · rw [if_neg (fun hc => h1 hc.1), if_neg (fun hc => h3 hc.1),
          if_neg (fun hc => h1 (by omega : p.1 = m))]
  -- resolve the last impossible branch arithmetic inline

end GemmVec

namespace GemmVec

/-! ## Micro-kernel characterization -/

/-- Reindex a grid sum `(i, l) ↦ i * v + l` as a sum over a flat range. -/
theorem sum_grid {M : Type*} [AddCommMonoid M] (n v : ℕ) (g : ℕ → M) :
    (∑ i ∈ Finset.range n, ∑ l ∈ Finset.range v, g (i * v + l))
      = ∑ r ∈ Finset.range (n * v), g r := by
  induction n with
  | zero => simp
  | succ n ih =>
    rw [Finset.sum_range_succ, ih, Nat.succ_mul, Finset.sum_range_add]

/-- Value of the micro-kernel accumulator tile after the reduction
loop: every in-tile vector cell holds the lane-wise reduction sum. -/
theorem VB_Caux_eq (vlen ROWS COLS : ℕ) (A : ℤ → ℚ) (bk : ℤ) (B : ℤ → ℚ) :
    VB_Caux vlen ROWS COLS A bk B = fun p =>
      if p.1 < ROWS / vlen ∧ p.2 < COLS then
        (fun l => ∑ kk ∈ Finset.range bk.toNat,
          A (((p.1 * vlen + l : ℕ) : ℤ) + (kk : ℤ) * (ROWS : ℤ)) *
            B ((p.2 : ℤ) + (kk : ℤ) * (COLS : ℤ)))
      else 0 := by
  rw [VB_Caux,
    cfor_add bk.toNat _
      (fun k p => if p.1 < ROWS / vlen ∧ p.2 < COLS then
        (fun l => A (((p.1 * vlen + l : ℕ) : ℤ) + (k : ℤ) * (ROWS : ℤ)) *
          B ((p.2 : ℤ) + (k : ℤ) * (COLS : ℤ)))
        else 0)
      (fun k acc => cfor_tile_add (ROWS / vlen) COLS _ acc)]
  funext p
  by_cases hp : p.1 < ROWS / vlen ∧ p.2 < COLS
  · simp only [hp, if_true, Pi.zero_apply]
    funext l
    rw [Pi.add_apply, Finset.sum_apply]
    simp
  · simp only [hp, if_false]
    rw [Finset.sum_eq_zero (fun k _ => rfl)]
    funext l
    simp

/-- Evaluated form of an in-tile accumulator cell. -/
theorem VB_Caux_apply (vlen ROWS COLS : ℕ) (A : ℤ → ℚ) (bk : ℤ) (B : ℤ → ℚ)
    (i j l : ℕ) (hi : i < ROWS / vlen) (hj : j < COLS) :
    VB_Caux vlen ROWS COLS A bk B (i, j) l
      = ∑ kk ∈ Finset.range bk.toNat,
          A (((i * vlen + l : ℕ) : ℤ) + (kk : ℤ) * (ROWS : ℤ)) *
            B ((j : ℤ) + (kk : ℤ) * (COLS : ℤ)) := by
  rw [VB_Caux_eq]
  simp only [hi, hj, and_self, if_true]

/-- The micro-kernel is the pointwise addition of `alpha` times its
per-cell reduction values at the tile's output addresses. -/
theorem VECTOR_BLOCK_eq (vlen ROWS COLS : ℕ) (hdvd : vlen ∣ ROWS)
    (A : ℤ → ℚ) (bk : ℤ) (B : ℤ → ℚ) (C : Mem) (cOff ldc : ℤ) (alpha : ℚ) :
    VECTOR_BLOCK vlen ROWS COLS A bk B C cOff ldc alpha = fun a =>
      C a + ∑ r ∈ Finset.range ROWS, ∑ c ∈ Finset.range COLS,
        if a = cOff + (r : ℤ) + (c : ℤ) * ldc then
          alpha * microAcc ROWS COLS A bk B r c
        else 0 := by
  have hR : ROWS / vlen * vlen = ROWS := Nat.div_mul_cancel hdvd
  simp only [VECTOR_BLOCK]
  have hinner : ∀ (j i : ℕ) (Cm : Mem),
      cfor vlen (fun l Cm =>
        upd Cm (cOff + ((i * vlen + l : ℕ) : ℤ) + (j : ℤ) * ldc)
          (Cm (cOff + ((i * vlen + l : ℕ) : ℤ) + (j : ℤ) * ldc) +
            alpha * VB_Caux vlen ROWS COLS A bk B (i, j) l)) Cm
      = fun y => Cm y + ∑ l ∈ Finset.range vlen,
          if y = cOff + ((i * vlen + l : ℕ) : ℤ) + (j : ℤ) * ldc then
            alpha * VB_Caux vlen ROWS COLS A bk B (i, j) l
          else 0 := by
    intro j i Cm
    exact cfor_add vlen _ _
      (fun l Cm => upd_add Cm (cOff + ((i * vlen + l : ℕ) : ℤ) + (j : ℤ) * ldc)
        (alpha * VB_Caux vlen ROWS COLS A bk B (i, j) l)) Cm
  have hmid : ∀ (j : ℕ) (Cm : Mem),
      cfor (ROWS / vlen) (fun i Cm =>
        cfor vlen (fun l Cm =>
          upd Cm (cOff + ((i * vlen + l : ℕ) : ℤ) + (j : ℤ) * ldc)
            (Cm (cOff + ((i * vlen + l : ℕ) : ℤ) + (j : ℤ) * ldc) +
              alpha * VB_Caux vlen ROWS COLS A bk B (i, j) l)) Cm) Cm
      = fun y => Cm y + ∑ i ∈ Finset.range (ROWS / vlen), ∑ l ∈ Finset.range vlen,
          if y = cOff + ((i * vlen + l : ℕ) : ℤ) + (j : ℤ) * ldc then
            alpha * VB_Caux vlen ROWS COLS A bk B (i, j) l
          else 0 := by
    intro j Cm
    exact cfor_add (ROWS / vlen) _ _ (fun i Cm => hinner j i Cm) Cm
  rw [cfor_add COLS _ _ (fun j Cm => hmid j Cm) C]
  funext y
  congr 1
  calc (∑ j ∈ Finset.range COLS, ∑ i ∈ Finset.range (ROWS / vlen), ∑ l ∈ Finset.range vlen,
        if y = cOff + ((i * vlen + l : ℕ) : ℤ) + (j : ℤ) * ldc then
          alpha * VB_Caux vlen ROWS COLS A bk B (i, j) l
        else 0)
      = ∑ j ∈ Finset.range COLS, ∑ i ∈ Finset.range (ROWS / vlen), ∑ l ∈ Finset.range vlen,
          (fun r : ℕ => if y = cOff + (r : ℤ) + (j : ℤ) * ldc then
            alpha * microAcc ROWS COLS A bk B r j
          else 0) (i * vlen + l) := by
        apply Finset.sum_congr rfl
        intro j hj
        apply Finset.sum_congr rfl
        intro i hi
        apply Finset.sum_congr rfl
        intro l _
        simp only [microAcc]
        rw [VB_Caux_apply vlen ROWS COLS A bk B i j l
          (Finset.mem_range.mp hi) (Finset.mem_range.mp hj)]
    _ = ∑ j ∈ Finset.range COLS, ∑ r ∈ Finset.range (ROWS / vlen * vlen),
          if y = cOff + (r : ℤ) + (j : ℤ) * ldc then
            alpha * microAcc ROWS COLS A bk B r j
          else 0 := by
        apply Finset.sum_congr rfl
        intro j _
        exact sum_grid (ROWS / vlen) vlen
          (fun r : ℕ => if y = cOff + (r : ℤ) + (j : ℤ) * ldc then
            alpha * microAcc ROWS COLS A bk B r j else 0)
    _ = ∑ j ∈ Finset.range COLS, ∑ r ∈ Finset.range ROWS,
          if y = cOff + (r : ℤ) + (j : ℤ) * ldc then
            alpha * microAcc ROWS COLS A bk B r j
          else 0 := by rw [hR]
    _ = ∑ r ∈ Finset.range ROWS, ∑ c ∈ Finset.range COLS,
          if y = cOff + (r : ℤ) + (c : ℤ) * ldc then
            alpha * microAcc ROWS COLS A bk B r c
          else 0 := Finset.sum_comm

end GemmVec

namespace GemmVec

/-! ## Fallback characterization -/

/-- Value of the fallback accumulator after the peel and the remaining
reduction iterations. -/
theorem FB_Caux_eq (m n : ℤ) (A : ℤ → ℚ) (k : ℤ) (B : ℤ → ℚ) :
    FB_Caux m n A k B = fun p =>
      if p.1 < m.toNat ∧ p.2 < n.toNat then genericAcc m n A k B p.1 p.2 else 0 := by
  simp only [FB_Caux]
  rw [cfor_tile_assign m.toNat n.toNat (fun i j => A i * B j) (fun _ => 0),
    cfor_add (k - 1).toNat _
      (fun t p => if p.1 < m.toNat ∧ p.2 < n.toNat then
        A ((p.1 : ℤ) + ((t : ℤ) + 1) * m) * B ((p.2 : ℤ) + ((t : ℤ) + 1) * n)
        else 0)
      (fun t acc => cfor_tile_add m.toNat n.toNat _ acc)]
  funext p
  by_cases hp : p.1 < m.toNat ∧ p.2 < n.toNat
  · simp only [if_pos hp, genericAcc]
  · simp only [if_neg hp]
    rw [Finset.sum_eq_zero (fun t _ => rfl), add_zero]

/-- The generic fallback is the pointwise addition of `alpha` times its
per-cell accumulation values at the tile's output addresses. -/
theorem GEBP_block_generic_eq (m n : ℤ) (A : ℤ → ℚ) (k : ℤ) (B : ℤ → ℚ)
    (C : Mem) (cOff ldc : ℤ) (alpha : ℚ) :
    GEBP_block_generic m n A k B C cOff ldc alpha = fun a =>
      C a + ∑ i ∈ Finset.range m.toNat, ∑ j ∈ Finset.range n.toNat,
        if a = cOff + (i : ℤ) + (j : ℤ) * ldc then
          alpha * genericAcc m n A k B i j
        else 0 := by
  simp only [GEBP_block_generic]
  have hin : ∀ (i : ℕ) (Cm : Mem),
      cfor n.toNat (fun j Cm =>
        upd Cm (cOff + (i : ℤ) + (j : ℤ) * ldc)
          (Cm (cOff + (i : ℤ) + (j : ℤ) * ldc) + alpha * FB_Caux m n A k B (i, j))) Cm
      = fun y => Cm y + ∑ j ∈ Finset.range n.toNat,
          if y = cOff + (i : ℤ) + (j : ℤ) * ldc then
            alpha * FB_Caux m n A k B (i, j)
          else 0 := by
    intro i Cm
    exact cfor_add n.toNat _ _
      (fun j Cm => upd_add Cm (cOff + (i : ℤ) + (j : ℤ) * ldc)
        (alpha * FB_Caux m n A k B (i, j))) Cm
  rw [cfor_add m.toNat _ _ (fun i Cm => hin i Cm) C]
  funext y
  congr 1
  apply Finset.sum_congr rfl
  intro i hi
  apply Finset.sum_congr rfl
  intro j hj
  rw [FB_Caux_eq]
  simp only [Finset.mem_range.mp hi, Finset.mem_range.mp hj, and_self, if_true]

/-! ## Dispatcher characterization -/

/-- The shape dispatch chain of `GEBP_block` condensed: a dispatched
shape goes to the matching `VECTOR_BLOCK` instance, everything else to
the generic fallback. -/
theorem GEBP_block_dispatch (isDouble : Bool) (m n first_row : ℤ) (A : ℤ → ℚ) (k : ℤ)
    (B : ℤ → ℚ) (C : Mem) (cOff ldc : ℤ) (alpha : ℚ) :
    GEBP_block isDouble m n first_row A k B C cOff ldc alpha =
      if dispatched isDouble m n then
        VECTOR_BLOCK (vlenFloats isDouble) m.toNat n.toNat
          (fun idx => A (first_row * k + idx)) k B C (cOff + first_row) ldc alpha
      else
        GEBP_block_generic m n (fun idx => A (first_row * k + idx)) k B C
          (cOff + first_row) ldc alpha := by
  by_cases hd : dispatched isDouble m n
  · rw [if_pos hd]
    simp only [GEBP_block]
    rcases hd with ⟨hm, hn⟩ | ⟨hm, hn⟩ | ⟨hm, hn⟩ | ⟨hm, hn⟩ | ⟨hm, hn⟩ | ⟨hm, hn⟩ |
      ⟨hD, hm, hn⟩ | ⟨hD, hm, hn⟩ <;> subst hm <;> subst hn <;> try subst hD
    all_goals rfl
  · rw [if_neg hd]
    simp only [GEBP_block]
    have h1 : ¬(m = 8 ∧ n = 4) := fun hc =>
      hd (show dispatched isDouble m n from Or.inl hc)
    have h2 : ¬(m = 8 ∧ n = 2) := fun hc =>
      hd (show dispatched isDouble m n from Or.inr (Or.inl hc))
    have h3 : ¬(m = 8 ∧ n = 1) := fun hc =>
      hd (show dispatched isDouble m n from Or.inr (Or.inr (Or.inl hc)))
    have h4 : ¬(m = 4 ∧ n = 4) := fun hc =>
      hd (show dispatched isDouble m n from Or.inr (Or.inr (Or.inr (Or.inl hc))))
    have h5 : ¬(m = 4 ∧ n = 2) := fun hc =>
      hd (show dispatched isDouble m n from Or.inr (Or.inr (Or.inr (Or.inr (Or.inl hc)))))
    have h6 : ¬(m = 4 ∧ n = 1) := fun hc =>
      hd (show dispatched isDouble m n from
        Or.inr (Or.inr (Or.inr (Or.inr (Or.inr (Or.inl hc))))))
    have h7 : ¬(isDouble = true ∧ m = 2 ∧ n = 4) := fun hc =>
      hd (show dispatched isDouble m n from
        Or.inr (Or.inr (Or.inr (Or.inr (Or.inr (Or.inr (Or.inl hc)))))))
    have h8 : ¬(isDouble = true ∧ m = 2 ∧ n = 2) := fun hc =>
      hd (show dispatched isDouble m n from
        Or.inr (Or.inr (Or.inr (Or.inr (Or.inr (Or.inr (Or.inr hc)))))))
    rw [if_neg h1, if_neg h2, if_neg h3, if_neg h4, if_neg h5, if_neg h6, if_neg h7, if_neg h8]

/-- A dispatched shape has rows divisible by the vector length (the
`_Static_assert` in `VECTOR_BLOCK`). -/
theorem dispatched_dvd (isDouble : Bool) (m n : ℤ) (hd : dispatched isDouble m n) :
    vlenFloats isDouble ∣ m.toNat := by
  rcases hd with ⟨hm, _⟩ | ⟨hm, _⟩ | ⟨hm, _⟩ | ⟨hm, _⟩ | ⟨hm, _⟩ | ⟨hm, _⟩ |
    ⟨hD, hm, _⟩ | ⟨hD, hm, _⟩ <;> subst hm <;> try subst hD
  all_goals first
    | decide
    | (cases isDouble <;> decide)

/-- `GEBP_block` is the pointwise addition of its per-cell increments
at the tile's output addresses (any `m`, `n`, `k`). -/
theorem GEBP_block_eq (isDouble : Bool) (m n first_row : ℤ) (A : ℤ → ℚ) (k : ℤ)
    (B : ℤ → ℚ) (C : Mem) (cOff ldc : ℤ) (alpha : ℚ) :
    GEBP_block isDouble m n first_row A k B C cOff ldc alpha = fun a =>
      C a + ∑ r ∈ Finset.range m.toNat, ∑ c ∈ Finset.range n.toNat,
        if a = cOff + first_row + (r : ℤ) + (c : ℤ) * ldc then
          GEBP_block_inc isDouble m n first_row A k B alpha r c
        else 0 := by
  rw [GEBP_block_dispatch]
  by_cases hd : dispatched isDouble m n
  · rw [if_pos hd,
      VECTOR_BLOCK_eq (vlenFloats isDouble) m.toNat n.toNat (dispatched_dvd isDouble m n hd)]
    funext a
    congr 1
    apply Finset.sum_congr rfl
    intro r _
    apply Finset.sum_congr rfl
    intro c _
    simp only [GEBP_block_inc, if_pos hd]
  · rw [if_neg hd, GEBP_block_generic_eq]
    funext a
    congr 1
    apply Finset.sum_congr rfl
    intro r _
    apply Finset.sum_congr rfl
    intro c _
    simp only [GEBP_block_inc, if_neg hd]

end GemmVec

namespace GemmVec

/-- For `k ≥ 1` (and nonnegative tile extents) the dispatched and
fallback accumulations coincide: both add `alpha` times the reduction
sum over `kk ∈ [0, k)` in the packed layouts. -/
theorem GEBP_block_inc_eq (isDouble : Bool) (m n first_row : ℤ) (A : ℤ → ℚ) (k : ℤ)
    (B : ℤ → ℚ) (alpha : ℚ) (hm : 0 ≤ m) (hn : 0 ≤ n) (hk : 1 ≤ k) (r c : ℕ) :
    GEBP_block_inc isDouble m n first_row A k B alpha r c
      = alpha * ∑ kk ∈ Finset.range k.toNat,
          A (first_row * k + ((r : ℤ) + (kk : ℤ) * m)) *
            B ((c : ℤ) + (kk : ℤ) * n) := by
  simp only [GEBP_block_inc]
  by_cases hd : dispatched isDouble m n
  · rw [if_pos hd]
    simp only [microAcc]
    congr 1
    apply Finset.sum_congr rfl
    intro kk _
    rw [Int.toNat_of_nonneg hm, Int.toNat_of_nonneg hn]
  · rw [if_neg hd]
    simp only [genericAcc]
    have hkn : k.toNat = (k - 1).toNat + 1 := by omega
    rw [hkn, Finset.sum_range_succ']
    have h0 : A (first_row * k + ((r : ℤ) + ((0 : ℕ) : ℤ) * m)) *
        B ((c : ℤ) + ((0 : ℕ) : ℤ) * n) = A (first_row * k + (r : ℤ)) * B (c : ℤ) := by
      norm_num
    rw [h0]
    have hs : ∀ t : ℕ,
        A (first_row * k + ((r : ℤ) + ((t + 1 : ℕ) : ℤ) * m)) *
            B ((c : ℤ) + ((t + 1 : ℕ) : ℤ) * n)
          = A (first_row * k + ((r : ℤ) + ((t : ℤ) + 1) * m)) *
              B ((c : ℤ) + ((t : ℤ) + 1) * n) := by
      intro t
      push_cast
      ring_nf
    rw [Finset.sum_congr rfl (fun t _ => hs t)]
    ring

/-- Unrolling of the row-partition loop as a fold of `GEBP_block` over
the row blocks. -/
theorem rowPartLoop_eq_foldl (isDouble : Bool) (bs : ℕ) (row bm num_cols : ℤ)
    (A : ℤ → ℚ) (bk : ℤ) (Bi : ℤ → ℚ) (cOff ldc : ℤ) (alpha : ℚ) (C : Mem) :
    rowPartLoop isDouble bs row bm num_cols A bk Bi cOff ldc alpha C
      = (partitionFrom bs row bm).foldl
          (fun Cm rb => GEBP_block isDouble (rb.2 : ℤ) num_cols rb.1 A bk Bi Cm cOff ldc alpha)
          C := by
  induction bs, row, bm using partitionFrom.induct generalizing C with
  | case1 pos E =>
    rw [rowPartLoop, partitionFrom]
    simp
  | case2 bs pos E h1 h2 ih =>
    rw [rowPartLoop, if_neg h1, if_pos h2, partitionFrom, if_neg h1, if_pos h2,
      List.foldl_cons]
    exact ih _
  | case3 bs pos E h1 h2 ih =>
    rw [rowPartLoop, if_neg h1, if_neg h2, partitionFrom, if_neg h1, if_neg h2]
    exact ih C

/-- Unrolling of the column-partition loop as a fold of
`GEBP_column_block` over the column blocks. -/
theorem colPartLoop_eq_foldl (isDouble : Bool) (unrollM : ℕ) (bs : ℕ) (col bn bm bk : ℤ)
    (ba bb : ℤ → ℚ) (ldc : ℤ) (alpha : ℚ) (C : Mem) :
    colPartLoop isDouble unrollM bs col bn bm bk ba bb ldc alpha C
      = (partitionFrom bs col bn).foldl
          (fun Cm cb => GEBP_column_block isDouble unrollM (cb.2 : ℤ) cb.1 ba bk bb bm Cm
            ldc alpha)
          C := by
  induction bs, col, bn using partitionFrom.induct generalizing C with
  | case1 pos E =>
    rw [colPartLoop, partitionFrom]
    simp
  | case2 bs pos E h1 h2 ih =>
    rw [colPartLoop, if_neg h1, if_pos h2, partitionFrom, if_neg h1, if_pos h2,
      List.foldl_cons]
    exact ih _
  | case3 bs pos E h1 h2 ih =>
    rw [colPartLoop, if_neg h1, if_neg h2, partitionFrom, if_neg h1, if_neg h2]
    exact ih C

end GemmVec

namespace GemmVec

/-- One column block adds, at every address, the contributions of all
its row blocks. -/
theorem GEBP_column_block_eq (isDouble : Bool) (unrollM : ℕ) (num_cols first_col : ℤ)
    (A : ℤ → ℚ) (bk : ℤ) (B : ℤ → ℚ) (bm : ℤ) (C : Mem) (ldc : ℤ) (alpha : ℚ) :
    GEBP_column_block isDouble unrollM num_cols first_col A bk B bm C ldc alpha
      = fun a => C a + ((partitionFrom unrollM 0 bm).map (fun rb =>
          ∑ r ∈ Finset.range rb.2, ∑ c ∈ Finset.range num_cols.toNat,
            if a = first_col * ldc + rb.1 + (r : ℤ) + (c : ℤ) * ldc then
              GEBP_block_inc isDouble (rb.2 : ℤ) num_cols rb.1 A bk
                (fun idx => B (first_col * bk + idx)) alpha r c
            else 0)).sum := by
  simp only [GEBP_column_block]
  rw [rowPartLoop_eq_foldl]
  refine foldl_add (partitionFrom unrollM 0 bm) _ _ (fun rb Cm => ?_) C
  rw [GEBP_block_eq]
  funext a
  simp only [Int.toNat_natCast]

/-- Master decomposition: past the degeneracy guard, `CNAME` adds
`kernelInc` pointwise to C (and nothing else). -/
theorem CNAME_split (isDouble : Bool) (unrollM unrollN : ℕ) (bm bn bk : ℤ) (alpha : ℚ)
    (ba bb : ℤ → ℚ) (C : Mem) (ldc : ℤ)
    (hguard : ¬(bm = 0 ∨ bn = 0 ∨ bk = 0 ∨ alpha = 0)) :
    (CNAME isDouble unrollM unrollN bm bn bk alpha ba bb C ldc).1
      = fun a => C a + kernelInc isDouble unrollM unrollN bm bn bk alpha ba bb ldc a := by
  simp only [CNAME, if_neg hguard]
  rw [colPartLoop_eq_foldl]
  rw [foldl_add (partitionFrom unrollN 0 bn) _
    (fun cb a => ((partitionFrom unrollM 0 bm).map (fun rb =>
      ∑ r ∈ Finset.range rb.2, ∑ c ∈ Finset.range cb.2,
        if a = cb.1 * ldc + rb.1 + (r : ℤ) + (c : ℤ) * ldc then
          GEBP_block_inc isDouble (rb.2 : ℤ) (cb.2 : ℤ) rb.1 ba bk
            (fun idx => bb (cb.1 * bk + idx)) alpha r c
        else 0)).sum)
    (fun cb Cm => ?_) C]
  · rfl
  · rw [GEBP_column_block_eq]
    funext a
    simp only [Int.toNat_natCast]

end GemmVec

namespace GemmVec

/-- No partition block fits when the extent is already exhausted. -/
theorem partitionFrom_nil (bs : ℕ) (pos E : ℤ) (h : E ≤ pos) :
    partitionFrom bs pos E = [] := by
  induction bs, pos, E using partitionFrom.induct with
  | case1 pos E => rw [partitionFrom]; simp
  | case2 bs pos E h1 h2 ih => omega
  | case3 bs pos E h1 h2 ih =>
    rw [partitionFrom, if_neg h1, if_neg h2]
    exact ih h

end GemmVec

namespace GemmVec

/-! ## Claim theorems -/

/-- C2: whenever `bm = 0`, `bn = 0`, `bk = 0`, or `alpha = 0`, `CNAME`
returns 0 (success) and every entry of C keeps exactly its prior value,
regardless of the contents of A and B. -/
theorem C2_degenerate_noop (isDouble : Bool) (unrollM unrollN : ℕ) (bm bn bk : ℤ)
    (alpha : ℚ) (ba bb : ℤ → ℚ) (C : Mem) (ldc : ℤ)
    (h : bm = 0 ∨ bn = 0 ∨ bk = 0 ∨ alpha = 0) :
    CNAME isDouble unrollM unrollN bm bn bk alpha ba bb C ldc = (C, 0) := by
  simp only [CNAME, if_pos h]

/-- Witness for C2 at a concrete degenerate input (`bk = 0`). -/
theorem C2_degenerate_noop_witness :
    CNAME false 8 4 3 2 0 (5 : ℚ) (fun _ => 1) (fun _ => 2) (fun z : ℤ => (z : ℚ)) 7
      = ((fun z : ℤ => (z : ℚ)), 0) :=
  C2_degenerate_noop false 8 4 3 2 0 5 (fun _ => 1) (fun _ => 2) (fun z : ℤ => (z : ℚ)) 7
    (Or.inr (Or.inr (Or.inl rfl)))

/-- C7: on every input, `CNAME` returns 0; both the degenerate early
return and normal completion produce return value 0. -/
theorem C7_returns_zero (isDouble : Bool) (unrollM unrollN : ℕ) (bm bn bk : ℤ)
    (alpha : ℚ) (ba bb : ℤ → ℚ) (C : Mem) (ldc : ℤ) :
    (CNAME isDouble unrollM unrollN bm bn bk alpha ba bb C ldc).2 = 0 := by
  simp only [CNAME]
  split <;> rfl

/-- C10: a negative row or column extent (with the other guard inputs
nonzero) is also a no-op returning 0, because no partition loop
iteration satisfies its block-size condition. -/
theorem C10_negative_extent_noop (isDouble : Bool) (unrollM unrollN : ℕ) (bm bn bk : ℤ)
    (alpha : ℚ) (ba bb : ℤ → ℚ) (C : Mem) (ldc : ℤ)
    (h : bm < 0 ∨ bn < 0) (_ha : alpha ≠ 0) (_hk : bk ≠ 0) :
    CNAME isDouble unrollM unrollN bm bn bk alpha ba bb C ldc = (C, 0) := by
  by_cases hg : bm = 0 ∨ bn = 0 ∨ bk = 0 ∨ alpha = 0
  · simp only [CNAME, if_pos hg]
  · simp only [CNAME, if_neg hg]
    rw [colPartLoop_eq_foldl]
    rcases h with hbm | hbn
    · have hbody : ∀ (cb : ℤ × ℕ) (Cm : Mem),
          GEBP_column_block isDouble unrollM (cb.2 : ℤ) cb.1 ba bk bb bm Cm ldc alpha = Cm := by
        intro cb Cm
        rw [GEBP_column_block_eq, partitionFrom_nil unrollM 0 bm (by omega)]
        funext a
        simp
      have hfold : ∀ (L : List (ℤ × ℕ)) (Cm : Mem),
          L.foldl (fun Cm cb =>
            GEBP_column_block isDouble unrollM (cb.2 : ℤ) cb.1 ba bk bb bm Cm ldc alpha) Cm
            = Cm := by
        intro L
        induction L with
        | nil => intro Cm; rfl
        | cons hd t ih =>
          intro Cm
          rw [List.foldl_cons, hbody hd Cm]
          exact ih Cm
      rw [hfold]
    · rw [partitionFrom_nil unrollN 0 bn (by omega)]
      rfl

/-- Witness for C10 at a concrete input with `bm = -1`. -/
theorem C10_negative_extent_noop_witness :
    ((-1 : ℤ) < 0 ∨ (2 : ℤ) < 0) ∧ (3 : ℚ) ≠ 0 ∧ (2 : ℤ) ≠ 0 ∧
      CNAME false 8 4 (-1) 2 2 (3 : ℚ) (fun _ => 1) (fun _ => 1) (fun z : ℤ => (z : ℚ)) 5
        = ((fun z : ℤ => (z : ℚ)), 0) :=
  ⟨Or.inl (by norm_num), by norm_num, by norm_num,
    C10_negative_extent_noop false 8 4 (-1) 2 2 3 (fun _ => 1) (fun _ => 1)
      (fun z : ℤ => (z : ℚ)) 5 (Or.inl (by norm_num)) (by norm_num) (by norm_num)⟩

/-- C6: `CNAME` writes only the addressed output slice: every flat
address of C that is not of the form `i + j*ldc` with `0 ≤ i < bm`,
`0 ≤ j < bn` keeps its prior value (A and B, embedded as read-only
functions, are never written by construction). -/
theorem C6_frame (isDouble : Bool) (unrollM unrollN : ℕ) (bm bn bk : ℤ)
    (alpha : ℚ) (ba bb : ℤ → ℚ) (C : Mem) (ldc : ℤ) (a : ℤ)
    (ha : ∀ i j : ℤ, 0 ≤ i → i < bm → 0 ≤ j → j < bn → a ≠ i + j * ldc) :
    (CNAME isDouble unrollM unrollN bm bn bk alpha ba bb C ldc).1 a = C a := by
  by_cases hg : bm = 0 ∨ bn = 0 ∨ bk = 0 ∨ alpha = 0
  · simp only [CNAME, if_pos hg]
  · rw [CNAME_split isDouble unrollM unrollN bm bn bk alpha ba bb C ldc hg]
    have hz : kernelInc isDouble unrollM unrollN bm bn bk alpha ba bb ldc a = 0 := by
      rw [kernelInc]
      apply List.sum_eq_zero
      intro x hx
      obtain ⟨cb, hcb, rfl⟩ := List.mem_map.mp hx
      apply List.sum_eq_zero
      intro y hy
      obtain ⟨rb, hrb, rfl⟩ := List.mem_map.mp hy
      apply Finset.sum_eq_zero
      intro r hr
      apply Finset.sum_eq_zero
      intro c hc
      rw [if_neg]
      have hrbm := partitionFrom_mem unrollM 0 bm rb hrb
      have hcbm := partitionFrom_mem unrollN 0 bn cb hcb
      have hr' := Finset.mem_range.mp hr
      have hc' := Finset.mem_range.mp hc
      have hneq := ha (rb.1 + (r : ℤ)) (cb.1 + (c : ℤ))
        (by omega) (by omega) (by omega) (by omega)
      intro hcontra
      apply hneq
      rw [hcontra]
      ring
    simp only [hz, add_zero]

/-- Witness for C6 at a concrete non-addressed location. -/
theorem C6_frame_witness :
    (CNAME false 8 4 1 1 1 (2 : ℚ) (fun _ => 1) (fun _ => 1) (fun z : ℤ => (z : ℚ)) 5).1 3
      = (fun z : ℤ => (z : ℚ)) 3 :=
  C6_frame false 8 4 1 1 1 2 (fun _ => 1) (fun _ => 1) (fun z : ℤ => (z : ℚ)) 5 3
    (by intro i j h0 h1 h2 h3; omega)

end GemmVec

namespace GemmVec

/-- Every consumed block size comes from the halving sequence of the
initial tile size. -/
theorem partitionFrom_halving (bs : ℕ) (pos E : ℤ) :
    ∀ sh ∈ partitionFrom bs pos E, sh.2 ∈ halving bs := by
  induction bs, pos, E using partitionFrom.induct with
  | case1 pos E =>
    rw [partitionFrom]
    intro sh hsh
    simp at hsh
  | case2 bs pos E h1 h2 ih =>
    rw [partitionFrom, if_neg h1, if_pos h2]
    intro sh hsh
    rcases List.mem_cons.mp hsh with hh | ht
    · subst hh
      rw [halving, if_neg h1]
      exact List.mem_cons_self _ _
    · exact ih sh ht
  | case3 bs pos E h1 h2 ih =>
    rw [partitionFrom, if_neg h1, if_neg h2]
    intro sh hsh
    rw [halving, if_neg h1]
    exact List.mem_cons_of_mem _ (ih sh hsh)

/-- C3: for every extent `E ≥ 0` and tile `T ≥ 1`, the consumed block
sizes sum exactly to `E`, every size comes from the halving sequence
`T, T/2, ..., 1`, and the blocks tile `[0, E)` with no overlap and no
gap: each index lies in exactly one block. -/
theorem C3_partition_exact (T : ℕ) (E : ℤ) (hT : 1 ≤ T) (hE : 0 ≤ E) :
    (((blockSizes T E).sum : ℕ) : ℤ) = E ∧
    (∀ b ∈ blockSizes T E, b ∈ halving T) ∧
    (∀ i : ℤ, 0 ≤ i → i < E →
      ∃! sh : ℤ × ℕ, sh ∈ partitionFrom T 0 E ∧ sh.1 ≤ i ∧ i < sh.1 + (sh.2 : ℤ)) := by
  refine ⟨?_, ?_, ?_⟩
  · have := partitionFrom_sum T 0 E hT hE
    rw [blockSizes]
    omega
  · intro b hb
    obtain ⟨sh, hsh, rfl⟩ := List.mem_map.mp hb
    exact partitionFrom_halving T 0 E sh hsh
  · intro i hi0 hiE
    obtain ⟨hmem, hlo, hhi⟩ := blockOfAux_mem T 0 E hT i hi0 hiE
    refine ⟨blockOfAux (partitionFrom T 0 E) i, ⟨hmem, hlo, hhi⟩, ?_⟩
    intro sh' ⟨hm', h1', h2'⟩
    exact (blockOfAux_eq (partitionFrom_pairwise T 0 E) sh' hm' i h1' h2').symm

/-- Witness for C3 at `T = 4`, `E = 5`. -/
theorem C3_partition_exact_witness :
    (1 ≤ 4) ∧ ((0 : ℤ) ≤ 5) ∧
      ((((blockSizes 4 5).sum : ℕ) : ℤ) = 5 ∧
      (∀ b ∈ blockSizes 4 5, b ∈ halving 4) ∧
      (∀ i : ℤ, 0 ≤ i → i < 5 →
        ∃! sh : ℤ × ℕ, sh ∈ partitionFrom 4 0 5 ∧ sh.1 ≤ i ∧ i < sh.1 + (sh.2 : ℤ))) :=
  ⟨by norm_num, by norm_num, C3_partition_exact 4 5 (by norm_num) (by norm_num)⟩

end GemmVec

namespace GemmVec

/-- Consumed block sizes are non-increasing along the partition. -/
theorem partitionFrom_sizes_sorted (bs : ℕ) (pos E : ℤ) :
    List.Pairwise (fun a b : ℕ => b ≤ a) ((partitionFrom bs pos E).map Prod.snd) := by
  rw [List.pairwise_map]
  induction bs, pos, E using partitionFrom.induct with
  | case1 pos E =>
    rw [partitionFrom]
    simp
  | case2 bs pos E h1 h2 ih =>
    rw [partitionFrom, if_neg h1, if_pos h2]
    refine List.pairwise_cons.mpr ⟨?_, ih⟩
    intro sh hsh
    exact (partitionFrom_mem bs (pos + bs) E sh hsh).2.1
  | case3 bs pos E h1 h2 ih =>
    rw [partitionFrom, if_neg h1, if_neg h2]
    refine ih.imp_of_mem ?_
    intro a b _ _ hab
    exact hab

/-- The partition loop first consumes some number of full-tile blocks,
then continues with the halved tile on a remainder smaller than the
tile. -/
theorem partitionFrom_phase (bs : ℕ) (pos E : ℤ) (hbs : bs ≠ 0) :
    ∃ (q : ℕ) (posq : ℤ),
      (partitionFrom bs pos E).map Prod.snd
        = List.replicate q bs ++ (partitionFrom (bs / 2) posq E).map Prod.snd
      ∧ E - posq < bs := by
  revert hbs
  induction bs, pos, E using partitionFrom.induct with
  | case1 pos E =>
    intro hbs
    omega
  | case2 bs pos E h1 h2 ih =>
    intro hbs
    obtain ⟨q, posq, heq, hlt⟩ := ih hbs
    refine ⟨q + 1, posq, ?_, hlt⟩
    rw [partitionFrom, if_neg h1, if_pos h2, List.map_cons, heq, List.replicate_succ]
    rfl
  | case3 bs pos E h1 h2 ih =>
    intro hbs
    refine ⟨0, pos, ?_, by omega⟩
    rw [partitionFrom, if_neg h1, if_neg h2]
    simp

/-- Below a power-of-two tile whose double exceeds the remainder, the
consumed block sizes are strictly decreasing (the binary decomposition
of the remainder). -/
theorem partitionFrom_pow_strict (t : ℕ) (pos E : ℤ)
    (h : E - pos < 2 * (((2 : ℕ) ^ t : ℕ) : ℤ)) :
    List.Pairwise (fun a b : ℕ => b < a) ((partitionFrom (2 ^ t) pos E).map Prod.snd) := by
  induction t generalizing pos with
  | zero =>
    norm_num at h
    by_cases h1 : (1 : ℤ) ≤ E - pos
    · rw [pow_zero, partitionFrom, if_neg one_ne_zero, if_pos (by exact_mod_cast h1)]
      have h2 : partitionFrom 1 (pos + ((1 : ℕ) : ℤ)) E = [] := by
        rw [partitionFrom, if_neg one_ne_zero, if_neg (by push_cast; omega)]
        rw [show (1 : ℕ) / 2 = 0 from rfl, partitionFrom]
        simp
      rw [h2]
      simp
    · rw [pow_zero, partitionFrom, if_neg one_ne_zero, if_neg (by exact_mod_cast h1)]
      rw [show (1 : ℕ) / 2 = 0 from rfl, partitionFrom]
      simp
  | succ t ih =>
    have hX1 : 1 ≤ (2 : ℕ) ^ t := Nat.one_le_two_pow
    have hX2 : (2 : ℕ) ^ (t + 1) = 2 * 2 ^ t := by
      rw [pow_succ]
      ring
    rw [hX2] at h ⊢
    by_cases h1 : ((2 * 2 ^ t : ℕ) : ℤ) ≤ E - pos
    · rw [partitionFrom, if_neg (by positivity), if_pos h1, List.map_cons]
      have htail : partitionFrom (2 * 2 ^ t) (pos + ((2 * 2 ^ t : ℕ) : ℤ)) E
          = partitionFrom (2 ^ t) (pos + ((2 * 2 ^ t : ℕ) : ℤ)) E := by
        rw [partitionFrom, if_neg (by positivity), if_neg (by
            push_cast at h ⊢
            linarith),
          Nat.mul_div_cancel_left _ (by norm_num)]
      rw [htail]
      refine List.pairwise_cons.mpr ⟨?_, ?_⟩
      · intro b hb
        obtain ⟨sh, hsh, rfl⟩ := List.mem_map.mp hb
        have hle := (partitionFrom_mem (2 ^ t) _ E sh hsh).2.1
        omega
      · apply ih
        push_cast at h h1 ⊢
        linarith
    · rw [partitionFrom, if_neg (by positivity), if_neg h1,
        Nat.mul_div_cancel_left _ (by norm_num)]
      apply ih
      push_cast at h h1 ⊢
      linarith

/-- Counterexample to C8 as stated: with tile `T = 4` and extent
`E = 8` the consumed block sizes are `[4, 4]`, which is not strictly
decreasing (the size 4 occurs twice). -/
theorem C8_counterexample :
    blockSizes 4 8 = [4, 4] ∧
      ¬ List.Pairwise (fun a b : ℕ => b < a) (blockSizes 4 8) := by
  have h : partitionFrom 4 0 8 = [(0, 4), (4, 4)] := by
    repeat (rw [partitionFrom]; norm_num)
  constructor
  · rw [blockSizes, h]
    rfl
  · rw [blockSizes, h]
    decide

/-- C8 (amended): the block-size sequence is non-increasing, and when
the tile size is a power of two every block size strictly below the
tile occurs at most once — the sizes after the leading run of full
tiles are strictly decreasing.  (As literally stated the claim fails:
the full tile size may repeat, see `C8_counterexample`.) -/
theorem C8_partition_monotone (T : ℕ) (E : ℤ) (hT : 1 ≤ T) (_hE : 1 ≤ E) :
    List.Pairwise (fun a b : ℕ => b ≤ a) (blockSizes T E) ∧
    (∀ t : ℕ, T = 2 ^ t →
      List.Pairwise (fun a b : ℕ => b < a)
        ((blockSizes T E).filter (fun b => b < T))) := by
  constructor
  · exact partitionFrom_sizes_sorted T 0 E
  · intro t hTt
    subst hTt
    obtain ⟨q, posq, heq, hlt⟩ := partitionFrom_phase (2 ^ t) 0 E (by positivity)
    rw [blockSizes, heq, List.filter_append]
    have hrep : (List.replicate q (2 ^ t)).filter (fun b => decide (b < 2 ^ t)) = [] := by
      apply List.filter_eq_nil_iff.mpr
      intro a ha
      rw [List.eq_of_mem_replicate ha]
      simp
    rw [hrep, List.nil_append]
    cases t with
    | zero =>
      have hz : partitionFrom (2 ^ 0 / 2) posq E = [] := by
        rw [show (2 : ℕ) ^ 0 / 2 = 0 from rfl, partitionFrom]
        simp
      rw [hz]
      simp
    | succ t =>
      have hhalf : (2 : ℕ) ^ (t + 1) / 2 = 2 ^ t := by
        rw [pow_succ]
        exact Nat.mul_div_cancel _ (by norm_num)
      have hstrict : List.Pairwise (fun a b : ℕ => b < a)
          ((partitionFrom (2 ^ (t + 1) / 2) posq E).map Prod.snd) := by
        rw [hhalf]
        apply partitionFrom_pow_strict
        push_cast at hlt ⊢
        have hps : ((2 : ℤ)) ^ (t + 1) = 2 * 2 ^ t := by ring
        linarith [hps ▸ hlt]
      have hall : ∀ b ∈ (partitionFrom (2 ^ (t + 1) / 2) posq E).map Prod.snd,
          decide (b < 2 ^ (t + 1)) = true := by
        intro b hb
        obtain ⟨sh, hsh, rfl⟩ := List.mem_map.mp hb
        rw [hhalf] at hsh
        have hle := (partitionFrom_mem (2 ^ t) posq E sh hsh).2.1
        simp only [decide_eq_true_eq]
        have h2t : (1 : ℕ) ≤ 2 ^ t := Nat.one_le_two_pow
        calc sh.2 ≤ 2 ^ t := hle
          _ < 2 ^ (t + 1) := by
              rw [pow_succ]
              omega
      rw [List.filter_eq_self.mpr hall]
      exact hstrict

/-- Witness for the amended C8 at `T = 4 = 2^2`, `E = 7`. -/
theorem C8_partition_monotone_witness :
    (1 ≤ 4) ∧ ((1 : ℤ) ≤ 7) ∧
      (List.Pairwise (fun a b : ℕ => b ≤ a) (blockSizes 4 7) ∧
      (∀ t : ℕ, 4 = 2 ^ t →
        List.Pairwise (fun a b : ℕ => b < a)
          ((blockSizes 4 7).filter (fun b => b < 4)))) :=
  ⟨by norm_num, by norm_num, C8_partition_monotone 4 7 (by norm_num) (by norm_num)⟩

end GemmVec

namespace GemmVec

/-- Counterexample to C9 as stated: with `bm = bn = 1`, `bk = -1` and
`alpha = 1` the degeneracy guard passes (it only checks `bk == 0`), and
the single `GEBP_block` invocation receives the reduction depth
`k = -1 < 1`. -/
theorem C9_counterexample :
    GEBP_calls 8 4 1 1 (-1) 1 = [(1, -1)] ∧
      ¬ (∀ c ∈ GEBP_calls 8 4 1 1 (-1) 1, 1 ≤ c.1 ∧ 1 ≤ c.2) := by
  have h4 : partitionFrom 4 0 1 = [(0, 1)] := by
    repeat (rw [partitionFrom]; norm_num)
  have h8 : partitionFrom 8 0 1 = [(0, 1)] := by
    repeat (rw [partitionFrom]; norm_num)
  have hcalls : GEBP_calls 8 4 1 1 (-1) 1 = [(1, -1)] := by
    rw [GEBP_calls, if_neg (by norm_num), h4, h8]
    rfl
  refine ⟨hcalls, ?_⟩
  rw [hcalls]
  decide

/-- C9 (amended): every `GEBP_block` invocation performed by `CNAME`
receives a column count `n ≥ 1` (partition block sizes are positive)
and a reduction depth `k = bk` that the guard ensures is nonzero; when
`bk ≥ 1` — in particular for every meaningful input — the received
depth is `≥ 1`.  (As literally stated the claim fails for negative
`bk`, see `C9_counterexample`.) -/
theorem C9_calls_guarded (unrollM unrollN : ℕ) (bm bn bk : ℤ) (alpha : ℚ)
    (c : ℤ × ℤ) (hc : c ∈ GEBP_calls unrollM unrollN bm bn bk alpha) :
    1 ≤ c.1 ∧ c.2 ≠ 0 ∧ (1 ≤ bk → 1 ≤ c.2) := by
  rw [GEBP_calls] at hc
  by_cases hg : bm = 0 ∨ bn = 0 ∨ bk = 0 ∨ alpha = 0
  · rw [if_pos hg] at hc
    simp at hc
  · rw [if_neg hg] at hc
    obtain ⟨cb, hcb, hmem⟩ := List.mem_flatMap.mp hc
    obtain ⟨rb, _, rfl⟩ := List.mem_map.mp hmem
    have hm := partitionFrom_mem unrollN 0 bn cb hcb
    refine ⟨?_, ?_, ?_⟩
    · have := hm.1
      simp only []
      omega
    · simp only []
      tauto
    · intro hbk
      simpa using hbk

/-- Witness for the amended C9 at a concrete call. -/
theorem C9_calls_guarded_witness :
    ((1 : ℤ), (5 : ℤ)) ∈ GEBP_calls 8 4 1 1 5 1 ∧
      (1 ≤ ((1 : ℤ), (5 : ℤ)).1 ∧ ((1 : ℤ), (5 : ℤ)).2 ≠ 0 ∧
        (1 ≤ (5 : ℤ) → 1 ≤ ((1 : ℤ), (5 : ℤ)).2)) := by
  have h4 : partitionFrom 4 0 1 = [(0, 1)] := by
    repeat (rw [partitionFrom]; norm_num)
  have h8 : partitionFrom 8 0 1 = [(0, 1)] := by
    repeat (rw [partitionFrom]; norm_num)
  have hcalls : GEBP_calls 8 4 1 1 5 1 = [(1, 5)] := by
    rw [GEBP_calls, if_neg (by norm_num), h4, h8]
    rfl
  have hmem : ((1 : ℤ), (5 : ℤ)) ∈ GEBP_calls 8 4 1 1 5 1 := by
    rw [hcalls]
    exact List.mem_singleton.mpr rfl
  exact ⟨hmem, C9_calls_guarded 8 4 1 1 5 1 ((1 : ℤ), (5 : ℤ)) hmem⟩

end GemmVec

namespace GemmVec

/-- Column-major tile addresses are injective once the column stride is
at least the tile height. -/
theorem addr_inj (R ldc r rp c cp : ℤ) (hRl : R ≤ ldc)
    (hr0 : 0 ≤ r) (hrR : r < R) (hp0 : 0 ≤ rp) (hpR : rp < R)
    (heq : r + c * ldc = rp + cp * ldc) : r = rp ∧ c = cp := by
  have hldc : 0 < ldc := by omega
  by_cases hc : c = cp
  · subst hc
    exact ⟨by linarith, rfl⟩
  · exfalso
    have h1 : (c - cp) * ldc = rp - r := by
      ring_nf
      linarith [heq]
    have habs : 1 ≤ |c - cp| := Int.one_le_abs (sub_ne_zero.mpr hc)
    have h2 : ldc ≤ |c - cp| * ldc := le_mul_of_one_le_left hldc.le habs
    have h3 : |(c - cp) * ldc| = |c - cp| * ldc := by
      rw [abs_mul, abs_of_pos hldc]
    have h4 : |(c - cp) * ldc| = |rp - r| := by rw [h1]
    have h5 : |rp - r| < ldc := by
      rw [abs_lt]
      omega
    linarith

/-- Counterexample to C5 as stated: the claim quantifies over every
`ldc`, but with `ldc = 0` the two output columns of an 4x2 tile alias
the same addresses, so entry (0,0) receives both columns' updates: its
final value is 2, not the claimed prior value plus
`alpha * sum_kk A[0 + kk*4] * B[0 + kk*2] = 1`. -/
theorem C5_counterexample :
    VECTOR_BLOCK 4 4 2 (fun _ => 1) 1 (fun _ => 1) (fun _ => 0) 0 0 1 0
      ≠ (fun _ : ℤ => (0 : ℚ)) 0 + 1 * ∑ kk ∈ Finset.range (1 : ℤ).toNat,
          (fun _ : ℤ => (1 : ℚ)) ((0 : ℤ) + (kk : ℤ) * 4) *
            (fun _ : ℤ => (1 : ℚ)) ((0 : ℤ) + (kk : ℤ) * 2) := by
  norm_num [VECTOR_BLOCK, VB_Caux, cfor, upd, List.range, List.range.loop]

/-- C5 (amended): provided the tile's output addresses are distinct
(`ldc ≥ ROWS`; as literally stated with arbitrary `ldc` the claim fails,
see `C5_counterexample`), the micro-kernel — which starts from
zero-initialized accumulators — increments each output entry
`C[r + c*ldc]` by exactly `alpha` times the reduction sum over
`kk ∈ [0, k)` of `A[r + kk*ROWS] * B[c + kk*COLS]`. -/
theorem C5_micro_kernel_update (vlen ROWS COLS : ℕ) (hdvd : vlen ∣ ROWS)
    (A : ℤ → ℚ) (k : ℤ) (_hk : 0 ≤ k) (B : ℤ → ℚ) (C : Mem) (cOff ldc : ℤ) (alpha : ℚ)
    (hldc : (ROWS : ℤ) ≤ ldc) (r c : ℕ) (hr : r < ROWS) (hc : c < COLS) :
    VECTOR_BLOCK vlen ROWS COLS A k B C cOff ldc alpha (cOff + (r : ℤ) + (c : ℤ) * ldc)
      = C (cOff + (r : ℤ) + (c : ℤ) * ldc)
        + alpha * ∑ kk ∈ Finset.range k.toNat,
            A ((r : ℤ) + (kk : ℤ) * (ROWS : ℤ)) * B ((c : ℤ) + (kk : ℤ) * (COLS : ℤ)) := by
  rw [VECTOR_BLOCK_eq vlen ROWS COLS hdvd]
  simp only []
  congr 1
  have hcell : ∀ rp ∈ Finset.range ROWS, ∀ cp ∈ Finset.range COLS,
      (rp ≠ r ∨ cp ≠ c) →
      (if cOff + (r : ℤ) + (c : ℤ) * ldc = cOff + (rp : ℤ) + (cp : ℤ) * ldc then
        alpha * microAcc ROWS COLS A k B rp cp else 0) = 0 := by
    intro rp hrp cp _ hne
    rw [if_neg]
    intro hcontra
    have heq : (r : ℤ) + (c : ℤ) * ldc = (rp : ℤ) + (cp : ℤ) * ldc := by linarith
    have := addr_inj (ROWS : ℤ) ldc r rp c cp hldc
      (by positivity) (by exact_mod_cast hr) (by positivity)
      (by exact_mod_cast Finset.mem_range.mp hrp) heq
    rcases hne with hne | hne
    · exact hne (by exact_mod_cast this.1.symm)
    · exact hne (by exact_mod_cast this.2.symm)
  rw [Finset.sum_eq_single r]
  · rw [Finset.sum_eq_single c]
    · rw [if_pos rfl, microAcc]
    · intro cp hcp hne
      exact hcell r (Finset.mem_range.mpr hr) cp hcp (Or.inr hne)
    · intro hcon
      exact absurd (Finset.mem_range.mpr hc) hcon
  · intro rp hrp hne
    apply Finset.sum_eq_zero
    intro cp hcp
    exact hcell rp hrp cp hcp (Or.inl hne)
  · intro hcon
    exact absurd (Finset.mem_range.mpr hr) hcon

/-- Witness for the amended C5 at a concrete input. -/
theorem C5_micro_kernel_update_witness :
    ((4 : ℕ) ∣ 8) ∧ ((0 : ℤ) ≤ 2) ∧ ((8 : ℤ) ≤ 9) ∧ (1 < 8) ∧ (0 < 2) ∧
      VECTOR_BLOCK 4 8 2 (fun z : ℤ => (z : ℚ)) 2 (fun z : ℤ => (z : ℚ))
          (fun _ => 3) 10 9 5 (10 + (1 : ℤ) + (0 : ℤ) * 9)
        = (fun _ => (3 : ℚ)) (10 + (1 : ℤ) + (0 : ℤ) * 9)
          + 5 * ∑ kk ∈ Finset.range (2 : ℤ).toNat,
              (fun z : ℤ => (z : ℚ)) ((1 : ℤ) + (kk : ℤ) * (8 : ℤ)) *
                (fun z : ℤ => (z : ℚ)) ((0 : ℤ) + (kk : ℤ) * (2 : ℤ)) :=
  ⟨by norm_num, by norm_num, by norm_num, by norm_num, by norm_num,
    C5_micro_kernel_update 4 8 2 (by norm_num) (fun z : ℤ => (z : ℚ)) 2 (by norm_num)
      (fun z : ℤ => (z : ℚ)) (fun _ => 3) 10 9 5 (by norm_num) 1 0
      (by norm_num) (by norm_num)⟩

/-- Equality of the two accumulation routes for `k ≥ 1`. -/
theorem microAcc_eq_genericAcc (R C : ℕ) (A : ℤ → ℚ) (k : ℤ) (B : ℤ → ℚ)
    (hk : 1 ≤ k) (i j : ℕ) :
    microAcc R C A k B i j = genericAcc (R : ℤ) (C : ℤ) A k B i j := by
  rw [microAcc, genericAcc]
  have hkn : k.toNat = (k - 1).toNat + 1 := by omega
  rw [hkn, Finset.sum_range_succ']
  have h0 : A ((i : ℤ) + ((0 : ℕ) : ℤ) * (R : ℤ)) * B ((j : ℤ) + ((0 : ℕ) : ℤ) * (C : ℤ))
      = A (i : ℤ) * B (j : ℤ) := by norm_num
  rw [h0]
  have hs : ∀ t : ℕ,
      A ((i : ℤ) + ((t + 1 : ℕ) : ℤ) * (R : ℤ)) * B ((j : ℤ) + ((t + 1 : ℕ) : ℤ) * (C : ℤ))
        = A ((i : ℤ) + ((t : ℤ) + 1) * (R : ℤ)) * B ((j : ℤ) + ((t : ℤ) + 1) * (C : ℤ)) := by
    intro t
    push_cast
    ring_nf
  rw [Finset.sum_congr rfl (fun t _ => hs t)]
  ring

/-- C4: for every specialized shape (including the double precision
extras) and every `k ≥ 1`, alpha, ldc, and operand/output contents, the
vectorized micro-kernel produces exactly the same final memory as the
generic triple-nested-loop fallback run on the same inputs. -/
theorem C4_specialized_matches_fallback (isDouble : Bool) (R C : ℕ)
    (hshape : (R, C) ∈ shapes isDouble) (A : ℤ → ℚ) (k : ℤ) (hk : 1 ≤ k)
    (B : ℤ → ℚ) (Cm : Mem) (cOff ldc : ℤ) (alpha : ℚ) :
    VECTOR_BLOCK (vlenFloats isDouble) R C A k B Cm cOff ldc alpha
      = GEBP_block_generic (R : ℤ) (C : ℤ) A k B Cm cOff ldc alpha := by
  have hdvd : vlenFloats isDouble ∣ R := by
    cases isDouble
    · have hmem : (R, C) ∈ [(8, 4), (8, 2), (8, 1), (4, 4), (4, 2), (4, 1)] := by
        simpa [shapes] using hshape
      fin_cases hmem <;> decide
    · have hmem : (R, C) ∈ [(8, 4), (8, 2), (8, 1), (4, 4), (4, 2), (4, 1), (2, 4), (2, 2)] := by
        simpa [shapes] using hshape
      fin_cases hmem <;> decide
  rw [VECTOR_BLOCK_eq (vlenFloats isDouble) R C hdvd, GEBP_block_generic_eq]
  funext a
  congr 1
  simp only [Int.toNat_natCast]
  apply Finset.sum_congr rfl
  intro r _
  apply Finset.sum_congr rfl
  intro c _
  rw [microAcc_eq_genericAcc R C A k B hk]

/-- Witness for C4 at a concrete specialized shape and input. -/
theorem C4_specialized_matches_fallback_witness :
    ((4, 1) ∈ shapes false) ∧ ((1 : ℤ) ≤ 1) ∧
      VECTOR_BLOCK (vlenFloats false) 4 1 (fun z : ℤ => (z : ℚ)) 1
          (fun z : ℤ => (z : ℚ)) (fun z : ℤ => (z : ℚ)) 2 7 3
        = GEBP_block_generic ((4 : ℕ) : ℤ) ((1 : ℕ) : ℤ) (fun z : ℤ => (z : ℚ)) 1
            (fun z : ℤ => (z : ℚ)) (fun z : ℤ => (z : ℚ)) 2 7 3 :=
  ⟨by decide, by norm_num,
    C4_specialized_matches_fallback false 4 1 (by decide) (fun z : ℤ => (z : ℚ)) 1
      (by norm_num) (fun z : ℤ => (z : ℚ)) (fun z : ℤ => (z : ℚ)) 2 7 3⟩

end GemmVec

namespace GemmVec

/-- The contribution of one column block, re-expressed over the logical
row indices of A via the row partition. -/
theorem colBlock_rows_logical (isDouble : Bool) (uM : ℕ) (bm bk : ℤ) (alpha : ℚ)
    (ba bb : ℤ → ℚ) (ldc : ℤ) (s : ℤ) (w : ℕ) (a : ℤ)
    (hM : 1 ≤ uM) (hbm : 0 ≤ bm) (hbk : 1 ≤ bk) :
    ((partitionFrom uM 0 bm).map fun rb =>
      ∑ r ∈ Finset.range rb.2, ∑ c ∈ Finset.range w,
        if a = s * ldc + rb.1 + (r : ℤ) + (c : ℤ) * ldc then
          GEBP_block_inc isDouble (rb.2 : ℤ) (w : ℤ) rb.1 ba bk
            (fun idx => bb (s * bk + idx)) alpha r c
        else 0).sum
    = ∑ c ∈ Finset.range w, ∑ t ∈ Finset.range bm.toNat,
        if a = (t : ℤ) + (s + (c : ℤ)) * ldc then
          alpha * ∑ kk ∈ Finset.range bk.toNat,
            Alogical ba uM bm bk t kk *
              bb (s * bk + ((c : ℤ) + (kk : ℤ) * (w : ℤ)))
        else 0 := by
  have hbmS : ((partitionFrom uM 0 bm).map Prod.snd).sum = bm.toNat := by
    have := partitionFrom_sum uM 0 bm hM hbm
    omega
  have hA1 : ∀ rb ∈ partitionFrom uM 0 bm,
      (∑ r ∈ Finset.range rb.2, ∑ c ∈ Finset.range w,
        if a = s * ldc + rb.1 + (r : ℤ) + (c : ℤ) * ldc then
          GEBP_block_inc isDouble (rb.2 : ℤ) (w : ℤ) rb.1 ba bk
            (fun idx => bb (s * bk + idx)) alpha r c
        else 0)
      = ∑ r ∈ Finset.range rb.2,
          (fun (sh : ℤ × ℕ) (idx : ℤ) =>
            ∑ c ∈ Finset.range w,
              if a = idx + (s + (c : ℤ)) * ldc then
                alpha * ∑ kk ∈ Finset.range bk.toNat,
                  ba (sh.1 * bk + (idx - sh.1) + (kk : ℤ) * (sh.2 : ℤ)) *
                    bb (s * bk + ((c : ℤ) + (kk : ℤ) * (w : ℤ)))
              else 0) rb (rb.1 + (r : ℤ)) := by
    intro rb _
    apply Finset.sum_congr rfl
    intro r _
    simp only []
    apply Finset.sum_congr rfl
    intro c _
    rw [GEBP_block_inc_eq isDouble (rb.2 : ℤ) (w : ℤ) rb.1 ba bk
      (fun idx => bb (s * bk + idx)) alpha (by positivity) (by positivity) hbk r c]
    have haddr : s * ldc + rb.1 + (r : ℤ) + (c : ℤ) * ldc
        = (rb.1 + (r : ℤ)) + (s + (c : ℤ)) * ldc := by ring
    rw [haddr]
    apply if_congr Iff.rfl ?_ rfl
    congr 1
    apply Finset.sum_congr rfl
    intro kk _
    have harg : rb.1 * bk + ((r : ℤ) + (kk : ℤ) * (rb.2 : ℤ))
        = rb.1 * bk + ((rb.1 + (r : ℤ)) - rb.1) + (kk : ℤ) * (rb.2 : ℤ) := by ring
    rw [harg]
  rw [List.map_congr_left hA1,
    partitionFrom_reindex
      (fun (sh : ℤ × ℕ) (idx : ℤ) =>
        ∑ c ∈ Finset.range w,
          if a = idx + (s + (c : ℤ)) * ldc then
            alpha * ∑ kk ∈ Finset.range bk.toNat,
              ba (sh.1 * bk + (idx - sh.1) + (kk : ℤ) * (sh.2 : ℤ)) *
                bb (s * bk + ((c : ℤ) + (kk : ℤ) * (w : ℤ)))
          else 0)
      uM 0 bm,
    hbmS]
  have hfin : ∀ t ∈ Finset.range bm.toNat,
      (fun (sh : ℤ × ℕ) (idx : ℤ) =>
        ∑ c ∈ Finset.range w,
          if a = idx + (s + (c : ℤ)) * ldc then
            alpha * ∑ kk ∈ Finset.range bk.toNat,
              ba (sh.1 * bk + (idx - sh.1) + (kk : ℤ) * (sh.2 : ℤ)) *
                bb (s * bk + ((c : ℤ) + (kk : ℤ) * (w : ℤ)))
          else 0)
        (blockOfAux (partitionFrom uM 0 bm) (0 + (t : ℤ))) (0 + (t : ℤ))
      = ∑ c ∈ Finset.range w,
          if a = (t : ℤ) + (s + (c : ℤ)) * ldc then
            alpha * ∑ kk ∈ Finset.range bk.toNat,
              Alogical ba uM bm bk t kk *
                bb (s * bk + ((c : ℤ) + (kk : ℤ) * (w : ℤ)))
          else 0 := by
    intro t _
    simp only [zero_add, Alogical, blockOf]
  rw [Finset.sum_congr rfl hfin, Finset.sum_comm]

/-- `kernelInc` re-expressed over the logical matrix entries: the total
increment at address `a` is the sum over all logical output cells
`(t, u)` whose column-major address is `a` of `alpha` times the logical
dot product. -/
theorem kernelInc_logical (isDouble : Bool) (uM uN : ℕ) (bm bn bk : ℤ) (alpha : ℚ)
    (ba bb : ℤ → ℚ) (ldc : ℤ) (a : ℤ)
    (hM : 1 ≤ uM) (hN : 1 ≤ uN) (hbm : 0 ≤ bm) (hbn : 0 ≤ bn) (hbk : 1 ≤ bk) :
    kernelInc isDouble uM uN bm bn bk alpha ba bb ldc a
      = ∑ u ∈ Finset.range bn.toNat, ∑ t ∈ Finset.range bm.toNat,
          if a = (t : ℤ) + (u : ℤ) * ldc then
            alpha * ∑ kk ∈ Finset.range bk.toNat,
              Alogical ba uM bm bk t kk * Blogical bb uN bn bk kk u
          else 0 := by
  rw [kernelInc]
  have hbnS : ((partitionFrom uN 0 bn).map Prod.snd).sum = bn.toNat := by
    have := partitionFrom_sum uN 0 bn hN hbn
    omega
  have hB1 : ∀ cb ∈ partitionFrom uN 0 bn,
      ((partitionFrom uM 0 bm).map fun rb =>
        ∑ r ∈ Finset.range rb.2, ∑ c ∈ Finset.range cb.2,
          if a = cb.1 * ldc + rb.1 + (r : ℤ) + (c : ℤ) * ldc then
            GEBP_block_inc isDouble (rb.2 : ℤ) (cb.2 : ℤ) rb.1 ba bk
              (fun idx => bb (cb.1 * bk + idx)) alpha r c
          else 0).sum
      = ∑ c ∈ Finset.range cb.2,
          (fun (sw : ℤ × ℕ) (j : ℤ) =>
            ∑ t ∈ Finset.range bm.toNat,
              if a = (t : ℤ) + j * ldc then
                alpha * ∑ kk ∈ Finset.range bk.toNat,
                  Alogical ba uM bm bk t kk *
                    bb (sw.1 * bk + (j - sw.1) + (kk : ℤ) * (sw.2 : ℤ))
              else 0) cb (cb.1 + (c : ℤ)) := by
    intro cb _
    rw [colBlock_rows_logical isDouble uM bm bk alpha ba bb ldc cb.1 cb.2 a hM hbm hbk]
    apply Finset.sum_congr rfl
    intro c _
    simp only []
    apply Finset.sum_congr rfl
    intro t _
    apply if_congr Iff.rfl ?_ rfl
    congr 1
    apply Finset.sum_congr rfl
    intro kk _
    have harg : cb.1 * bk + ((c : ℤ) + (kk : ℤ) * (cb.2 : ℤ))
        = cb.1 * bk + ((cb.1 + (c : ℤ)) - cb.1) + (kk : ℤ) * (cb.2 : ℤ) := by ring
    rw [harg]
  rw [List.map_congr_left hB1,
    partitionFrom_reindex
      (fun (sw : ℤ × ℕ) (j : ℤ) =>
        ∑ t ∈ Finset.range bm.toNat,
          if a = (t : ℤ) + j * ldc then
            alpha * ∑ kk ∈ Finset.range bk.toNat,
              Alogical ba uM bm bk t kk *
                bb (sw.1 * bk + (j - sw.1) + (kk : ℤ) * (sw.2 : ℤ))
          else 0)
      uN 0 bn,
    hbnS]
  apply Finset.sum_congr rfl
  intro u _
  simp only [zero_add, Blogical, blockOf]

end GemmVec

namespace GemmVec

/-- C1: for all positive extents, every alpha and all matrix contents
(with a valid output stride `ldc ≥ bm` and positive unroll parameters),
`CNAME` updates every output entry `C[i + j*ldc]` to its prior value
plus `alpha` times entry `(i, j)` of the logical product `A * B`, where
A is read from its packed row-block layout and B from its packed
column-panel layout, as a naive triple-loop reference computes it in
exact arithmetic. -/
theorem C1_gemm_correct (isDouble : Bool) (unrollM unrollN : ℕ) (bm bn bk : ℤ)
    (alpha : ℚ) (ba bb : ℤ → ℚ) (C : Mem) (ldc : ℤ)
    (hM : 1 ≤ unrollM) (hN : 1 ≤ unrollN)
    (hbm : 1 ≤ bm) (hbn : 1 ≤ bn) (hbk : 1 ≤ bk) (hldc : bm ≤ ldc)
    (i j : ℤ) (hi0 : 0 ≤ i) (hibm : i < bm) (hj0 : 0 ≤ j) (hjbn : j < bn) :
    (CNAME isDouble unrollM unrollN bm bn bk alpha ba bb C ldc).1 (i + j * ldc)
      = C (i + j * ldc)
        + alpha * ∑ kk ∈ Finset.range bk.toNat,
            Alogical ba unrollM bm bk i kk * Blogical bb unrollN bn bk kk j := by
  by_cases halpha : alpha = 0
  · subst halpha
    simp only [CNAME, if_pos (Or.inr (Or.inr (Or.inr rfl)))]
    simp
  · have hguard : ¬(bm = 0 ∨ bn = 0 ∨ bk = 0 ∨ alpha = 0) := by
      push_neg
      exact ⟨by omega, by omega, by omega, halpha⟩
    rw [CNAME_split isDouble unrollM unrollN bm bn bk alpha ba bb C ldc hguard]
    simp only []
    rw [kernelInc_logical isDouble unrollM unrollN bm bn bk alpha ba bb ldc (i + j * ldc)
      hM hN (by omega) (by omega) hbk]
    congr 1
    have hcell0 : ∀ u ∈ Finset.range bn.toNat, ∀ t ∈ Finset.range bm.toNat,
        (¬((t : ℤ) = i ∧ (u : ℤ) = j)) →
        (if i + j * ldc = (t : ℤ) + (u : ℤ) * ldc then
          alpha * ∑ kk ∈ Finset.range bk.toNat,
            Alogical ba unrollM bm bk t kk * Blogical bb unrollN bn bk kk u
        else 0) = 0 := by
      intro u _ t ht hne
      rw [if_neg]
      intro hcontra
      have hinj := addr_inj bm ldc i (t : ℤ) j (u : ℤ) hldc hi0 hibm
        (by positivity) (by have := Finset.mem_range.mp ht; omega) hcontra
      exact hne ⟨hinj.1.symm, hinj.2.symm⟩
    have houter : (∑ u ∈ Finset.range bn.toNat, ∑ t ∈ Finset.range bm.toNat,
        if i + j * ldc = (t : ℤ) + (u : ℤ) * ldc then
          alpha * ∑ kk ∈ Finset.range bk.toNat,
            Alogical ba unrollM bm bk t kk * Blogical bb unrollN bn bk kk u
        else 0)
        = ∑ t ∈ Finset.range bm.toNat,
            if i + j * ldc = (t : ℤ) + ((j.toNat : ℕ) : ℤ) * ldc then
              alpha * ∑ kk ∈ Finset.range bk.toNat,
                Alogical ba unrollM bm bk t kk * Blogical bb unrollN bn bk kk j.toNat
            else 0 := by
      apply Finset.sum_eq_single
      · intro u hu hne
        apply Finset.sum_eq_zero
        intro t ht
        exact hcell0 u hu t ht (fun hc => hne (by omega))
      · intro hcon
        exact absurd (Finset.mem_range.mpr (by omega)) hcon
    rw [houter]
    have hinner : (∑ t ∈ Finset.range bm.toNat,
        if i + j * ldc = (t : ℤ) + ((j.toNat : ℕ) : ℤ) * ldc then
          alpha * ∑ kk ∈ Finset.range bk.toNat,
            Alogical ba unrollM bm bk t kk * Blogical bb unrollN bn bk kk j.toNat
        else 0)
        = if i + j * ldc = ((i.toNat : ℕ) : ℤ) + ((j.toNat : ℕ) : ℤ) * ldc then
            alpha * ∑ kk ∈ Finset.range bk.toNat,
              Alogical ba unrollM bm bk i.toNat kk * Blogical bb unrollN bn bk kk j.toNat
          else 0 := by
      apply Finset.sum_eq_single
      · intro t ht hne
        refine hcell0 j.toNat (Finset.mem_range.mpr (by omega)) t ht ?_
        intro hc
        exact hne (by omega)
      · intro hcon
        exact absurd (Finset.mem_range.mpr (by omega)) hcon
    rw [hinner, if_pos (by rw [Int.toNat_of_nonneg hi0, Int.toNat_of_nonneg hj0])]
    congr 1
    apply Finset.sum_congr rfl
    intro kk _
    rw [Int.toNat_of_nonneg hi0, Int.toNat_of_nonneg hj0]

/-- Witness for C1 at a concrete input. -/
theorem C1_gemm_correct_witness :
    (1 ≤ 8) ∧ (1 ≤ 4) ∧ ((1 : ℤ) ≤ 1) ∧ ((1 : ℤ) ≤ 1) ∧ ((1 : ℤ) ≤ 1) ∧
      ((1 : ℤ) ≤ 1) ∧ ((0 : ℤ) ≤ 0) ∧ ((0 : ℤ) < 1) ∧
      (CNAME false 8 4 1 1 1 (2 : ℚ) (fun _ => 3) (fun _ => 5) (fun _ => 7) 1).1
          ((0 : ℤ) + (0 : ℤ) * 1)
        = (fun _ : ℤ => (7 : ℚ)) ((0 : ℤ) + (0 : ℤ) * 1)
          + 2 * ∑ kk ∈ Finset.range (1 : ℤ).toNat,
              Alogical (fun _ => 3) 8 1 1 0 kk * Blogical (fun _ => 5) 4 1 1 kk 0 :=
  ⟨by norm_num, by norm_num, by norm_num, by norm_num, by norm_num, by norm_num,
    by norm_num, by norm_num,
    C1_gemm_correct false 8 4 1 1 1 2 (fun _ => 3) (fun _ => 5) (fun _ => 7) 1
      (by norm_num) (by norm_num) (by norm_num) (by norm_num) (by norm_num) (by norm_num)
      0 0 (by norm_num) (by norm_num) (by norm_num) (by norm_num)⟩

end GemmVec
